import Mathlib

/-!
Shallow embedding of the configuration-resolution core of a CI orchestrator
(project model, override merge, task/variant selection, alias resolution,
display-task expansion, task-ID generation), together with theorems checking
the natural-language specification against the code.

Conventions of the embedding:
* Go slices are `List`, Go strings are `String`, Go `*T` option-like pointers
  are `Option T`, Go `int`/`int64` are `Int` (no arithmetic is performed on
  them, only zero tests and assignment).
* Go maps built by repeated assignment are modelled by a left fold in which a
  later binding overwrites an earlier one; lookups that in Go return the zero
  value return `Option`/`""` here.
* A Go nil-pointer dereference (a panic) is modelled by `Except.error`;
  functions on the panic-free path return `Except.ok`.
* Struct fields that no embedded operation reads (expansion maps, module
  lists, command bodies, distro defaults and similar) are omitted from the
  corresponding structures.
-/

/-- TaskUnitDependency: a task/group that must finish before the holder runs. -/
structure TaskUnitDependency where
  Name : String
  Variant : String
  Status : String
  PatchOptional : Bool
deriving DecidableEq

/-- TaskUnitRequirement: a task/group that must exist along with the holder. -/
structure TaskUnitRequirement where
  Name : String
  Variant : String
deriving DecidableEq

/-- BuildVariantTaskUnit: a reference from a build variant to a task or task
group, carrying the per-variant overrides. -/
structure BuildVariantTaskUnit where
  Name : String
  IsGroup : Bool := false
  GroupName : String := ""
  Patchable : Option Bool := none
  Priority : Int := 0
  DependsOn : List TaskUnitDependency := []
  Requires : List TaskUnitRequirement := []
  Distros : List String := []
  ExecTimeoutSecs : Int := 0
  Stepback : Option Bool := none
deriving DecidableEq

/-- ProjectTask: the canonical project-level definition of a task. -/
structure ProjectTask where
  Name : String
  Priority : Int := 0
  ExecTimeoutSecs : Int := 0
  DependsOn : List TaskUnitDependency := []
  Requires : List TaskUnitRequirement := []
  Tags : List String := []
  Patchable : Option Bool := none
  Stepback : Option Bool := none
deriving DecidableEq

/-- DisplayTask: a name aggregating a set of execution-task names. -/
structure DisplayTask where
  Name : String
  ExecutionTasks : List String := []
deriving DecidableEq

/-- TaskGroup: a named cluster of member task names (setup/teardown command
sets and host limits are never read by the embedded operations and are
omitted). -/
structure TaskGroup where
  Name : String
  Tasks : List String := []
deriving DecidableEq

/-- BuildVariant: a named execution environment with its task references and
display tasks. -/
structure BuildVariant where
  Name : String
  DisplayName : String := ""
  Disabled : Bool := false
  Tags : List String := []
  Tasks : List BuildVariantTaskUnit := []
  DisplayTasks : List DisplayTask := []
deriving DecidableEq

/-- Project: the root aggregate of the declarative configuration. -/
structure Project where
  Identifier : String
  BuildVariants : List BuildVariant := []
  TaskGroups : List TaskGroup := []
  Tasks : List ProjectTask := []
deriving DecidableEq

/-- TVPair: the (variant, task-name) identity key of the task graph. -/
structure TVPair where
  Variant : String
  TaskName : String
deriving DecidableEq

/-- TaskVariantPairs: the selected graph, split into execution-task pairs and
display-task pairs. -/
structure TaskVariantPairs where
  ExecTasks : List TVPair := []
  DisplayTasks : List TVPair := []
deriving DecidableEq

/-- TaskIdTable: the map from TVPair to generated task id. The Go map built
by repeated `AddId` assignments is modelled as the list of assignments in
order; a later assignment to the same key overwrites an earlier one, which
`getId` realises by taking the last matching entry. -/
abbrev TaskIdTable := List (TVPair × String)

/-- TaskIdConfig bundles the execution-task table and the display-task table. -/
structure TaskIdConfig where
  ExecutionTasks : TaskIdTable := []
  DisplayTasks : TaskIdTable := []
deriving DecidableEq

/-- Version: the read-only version/patch context. `CreateTime` stands for the
creation timestamp already rendered with the fixed id-time layout (time
formatting itself is outside the embedded code). -/
structure Version where
  Id : String
  Revision : String
  Requester : String
  CreateTime : String
deriving DecidableEq

/-- Patch document: the requested build-variant names and task names. -/
structure Patch where
  BuildVariants : List String := []
  Tasks : List String := []
deriving DecidableEq

/-- AddId adds the id for the task/variant combination to the table. -/
def TaskIdTable.AddId (tt : TaskIdTable) (variant taskName id : String) : TaskIdTable :=
  tt ++ [(TVPair.mk variant taskName, id)]

/-- GetId returns the id for the given task on the given variant, or the empty
string when the pair is absent (the Go map's zero value). -/
def TaskIdTable.GetId (tt : TaskIdTable) (variant taskName : String) : String :=
  match tt.reverse.find? (fun e => e.1 = TVPair.mk variant taskName) with
  | some e => e.2
  | none => ""

/-- Populate updates the base fields of the BuildVariantTaskUnit with fields
from the project task definition; `Name` (and command content, which the unit
does not carry) are never updated. -/
def BuildVariantTaskUnit.Populate (bvt : BuildVariantTaskUnit) (pt : ProjectTask) : BuildVariantTaskUnit :=
  let b1 := if bvt.DependsOn = [] then { bvt with DependsOn := pt.DependsOn } else bvt
  let b2 := if b1.Requires = [] then { b1 with Requires := pt.Requires } else b1
  let b3 := if b2.Priority = 0 then { b2 with Priority := pt.Priority } else b2
  let b4 := if b3.Patchable = none then { b3 with Patchable := pt.Patchable } else b3
  let b5 := if b4.ExecTimeoutSecs = 0 then { b4 with ExecTimeoutSecs := pt.ExecTimeoutSecs } else b4
  let b6 := if b5.Stepback = none then { b5 with Stepback := pt.Stepback } else b5
  b6

/-- Modelled from the spec: the character replacement performed by the
sanitizer `util.CleanName`, which is not under src/; the spec only says ids
are "sanitized to a safe identifier character set". Characters outside the
safe set (hyphen, space) are replaced by an underscore. -/
def cleanChar (c : Char) : Char :=
  if c = '-' ∨ c = ' ' then '_' else c

/-- Modelled from the spec: `util.CleanName`, the id sanitizer (not under
src/), as the character-by-character map of `cleanChar`. -/
def cleanName (s : String) : String :=
  String.mk (s.data.map cleanChar)

/-- Modelled from the spec: the patch-type requester constants used by
`evergreen.IsPatchRequester` (not under src/). -/
def patchVersionRequester : String := "patch_request"

/-- Modelled from the spec: the GitHub pull-request requester constant
(not under src/). -/
def githubPRRequester : String := "github_pull_request"

/-- Modelled from the spec: `evergreen.IsPatchRequester` (not under src/),
which detects the patch-type requesters of a version. -/
def isPatchRequester (requester : String) : Bool :=
  requester = patchVersionRequester ∨ requester = githubPRRequester

/-- Modelled from the spec: `util.StringSliceIntersection` (not under src/):
the elements of the first list that also occur in the second. Only its
emptiness is ever consulted by the embedded code. -/
def stringSliceIntersection (a b : List String) : List String :=
  a.filter (fun x => x ∈ b)

/-- FindBuildVariant returns the first build variant with the given name, if
any (a Go nil result is `none`). -/
def Project.FindBuildVariant (p : Project) (build : String) : Option BuildVariant :=
  p.BuildVariants.find? (fun b => b.Name = build)

/-- FindProjectTask returns the first project task with the given name, if
any (a Go nil result is `none`). -/
def Project.FindProjectTask (p : Project) (name : String) : Option ProjectTask :=
  p.Tasks.find? (fun t => t.Name = name)

/-- FindTaskGroup returns the first task group with the given name, if any. -/
def Project.FindTaskGroup (p : Project) (name : String) : Option TaskGroup :=
  p.TaskGroups.find? (fun tg => tg.Name = name)

/-- Lookup in the `tgMap` that the source builds by assigning every task group
of the project into a Go map keyed by name: a later group with the same name
overwrites an earlier one. -/
def tgMapLookup (tgs : List TaskGroup) (name : String) : Option TaskGroup :=
  tgs.foldl (fun acc tg => if tg.Name = name then some tg else acc) none

/-- GetSpecForTask returns the ProjectTask spec for the given name, or the
zero ProjectTask if none exists. -/
def Project.GetSpecForTask (p : Project) (name : String) : ProjectTask :=
  match p.FindProjectTask name with
  | some pt => pt
  | none => { Name := "" }

/-- Inner loop of FindTaskForVariant over the variant's task units. A direct
name match with an existing project task returns the populated unit; a match
through a task group's member list dereferences `FindProjectTask` without a
nil check, which panics (`Except.error`) when the member has no project-task
definition. -/
def findTaskForVariantLoop (p : Project) (task : String) :
    List BuildVariantTaskUnit → Except String (Option BuildVariantTaskUnit)
  | [] => Except.ok none
  | bvt :: rest =>
    match (if bvt.Name = task then
            match p.FindProjectTask task with
            | some pt => some (bvt.Populate pt)
            | none => none
          else none : Option BuildVariantTaskUnit) with
    | some found => Except.ok (some found)
    | none =>
      match tgMapLookup p.TaskGroups bvt.Name with
      | some tg =>
        if task ∈ tg.Tasks then
          match p.FindProjectTask task with
          | some pt => Except.ok (some (bvt.Populate pt))
          | none => Except.error "runtime error: invalid memory address or nil pointer dereference"
        else findTaskForVariantLoop p task rest
      | none => findTaskForVariantLoop p task rest

/-- FindTaskForVariant resolves a task name on a variant: `ok none` is the Go
nil ("not found") result, `ok (some u)` is the found unit with the override
merge applied, and `error` is the panic on the unchecked group-member path. -/
def Project.FindTaskForVariant (p : Project) (task variant : String) :
    Except String (Option BuildVariantTaskUnit) :=
  match p.FindBuildVariant variant with
  | none => Except.ok none
  | some bv => findTaskForVariantLoop p task bv.Tasks

/-- GetDisplayTaskNamek returns the name of the first display task of the
variant that lists `execTask` among its execution tasks, or the empty string. -/
def BuildVariant.GetDisplayTaskNamek (bv : BuildVariant) (execTask : String) : String :=
  match bv.DisplayTasks.find? (fun dt => execTask ∈ dt.ExecutionTasks) with
  | some dt => dt.Name
  | none => ""

/-- The revision component of a generated id: the raw revision for mainline
versions, or the patch-namespaced `patch_<revision>_<versionId>` string that
the callers of `generateId` compute for patch-type requesters. -/
def revisionComponent (v : Version) : String :=
  if isPatchRequester v.Requester then
    "patch_" ++ v.Revision ++ "_" ++ v.Id
  else
    v.Revision

/-- generateId renders the unsanitized id
`<identifier>_<variant>_<name>_<rev>_<createTime>` for one task on one
variant of one version. -/
def generateId (name : String) (proj : Project) (projBV : BuildVariant)
    (rev : String) (v : Version) : String :=
  proj.Identifier ++ "_" ++ projBV.Name ++ "_" ++ name ++ "_" ++ rev ++ "_" ++ v.CreateTime

/-- Lexicographic strictly-less on character lists, the order Go's `<` on
strings computes (byte-wise, which agrees with character-wise comparison on
the names involved). -/
def strLtChars : List Char → List Char → Bool
  | [], [] => false
  | [], _ :: _ => true
  | _ :: _, [] => false
  | a :: as, b :: bs =>
    if a.toNat < b.toNat then true
    else if b.toNat < a.toNat then false
    else strLtChars as bs

/-- The `Less` comparator of the build-variant sort: display names compared
as strings. -/
def displayNameLt (a b : BuildVariant) : Bool :=
  strLtChars a.DisplayName.data b.DisplayName.data

/-- Stable insertion of a build variant before the first strictly greater
display name (equal display names keep their original relative order, as
`sort.Stable` guarantees). -/
def insertByDisplayName (x : BuildVariant) : List BuildVariant → List BuildVariant
  | [] => [x]
  | y :: ys =>
    if displayNameLt x y then x :: y :: ys
    else y :: insertByDisplayName x ys

/-- The stable sort of the build-variant list by display name performed by
`sort.Stable(p.BuildVariants)` at the start of NewTaskIdTable. A stable sort's
output is determined by the input order and the comparator, so insertion sort
with the same comparator reproduces it. -/
def sortByDisplayName : List BuildVariant → List BuildVariant
  | [] => []
  | x :: xs => insertByDisplayName x (sortByDisplayName xs)

/-- Execution-task id entries contributed by one build variant in
NewTaskIdTable: task-group references contribute one entry per member task,
plain references one entry each. -/
def execIdsForVariant (p : Project) (v : Version) (bv : BuildVariant) :
    List BuildVariantTaskUnit → List (TVPair × String)
  | [] => []
  | t :: rest =>
    match p.FindTaskGroup t.Name with
    | some tg =>
      (tg.Tasks.map fun g =>
        (TVPair.mk bv.Name g, cleanName (generateId g p bv (revisionComponent v) v)))
        ++ execIdsForVariant p v bv rest
    | none =>
      (TVPair.mk bv.Name t.Name, cleanName (generateId t.Name p bv (revisionComponent v) v))
        :: execIdsForVariant p v bv rest

/-- Display-task id entries contributed by one build variant in
NewTaskIdTable; the generated name carries the fixed `display_` marker. -/
def displayIdsForVariant (p : Project) (v : Version) (bv : BuildVariant) : List (TVPair × String) :=
  bv.DisplayTasks.map fun dt =>
    (TVPair.mk bv.Name dt.Name,
      cleanName (generateId ("display_" ++ dt.Name) p bv (revisionComponent v) v))

/-- NewTaskIdTable builds the full-project id tables for a version. The
receiver project is returned as well, because the Go function mutates it in
place: `sort.Stable` reorders `p.BuildVariants` by display name before the
tables are generated. -/
def NewTaskIdTable (p : Project) (v : Version) : TaskIdConfig × Project :=
  let p' : Project := { p with BuildVariants := sortByDisplayName p.BuildVariants }
  let execTable : TaskIdTable :=
    p'.BuildVariants.foldl (fun acc bv => acc ++ execIdsForVariant p' v bv bv.Tasks) []
  let displayTable : TaskIdTable :=
    p'.BuildVariants.foldl (fun acc bv => acc ++ displayIdsForVariant p' v bv) []
  ({ ExecutionTasks := execTable, DisplayTasks := displayTable }, p')

/-- TaskNames extracts the unique task names of the given variant from a pair
set, in first-occurrence order; `seen` carries the names already picked up. -/
def taskNamesOf (variant : String) : List TVPair → List String → List String
  | [], _ => []
  | pr :: rest, seen =>
    if pr.Variant = variant then
      if pr.TaskName ∈ seen then taskNamesOf variant rest seen
      else pr.TaskName :: taskNamesOf variant rest (pr.TaskName :: seen)
    else taskNamesOf variant rest seen

/-- TaskNames on a TVPairSet, as called by generateIdsForVariant. -/
def TVPairSet.TaskNames (tvps : List TVPair) (variant : String) : List String :=
  taskNamesOf variant tvps []

/-- Task-unit loop of generateIdsForVariant: a variant task whose name is in
the requested names gets an id; otherwise, when the name is a task group,
every member of the group gets an id whether requested or not. -/
def genIdsTaskLoop (proj : Project) (v : Version) (projBV : BuildVariant)
    (variant : String) (names : List String) (tgs : List TaskGroup) :
    List BuildVariantTaskUnit → TaskIdTable → TaskIdTable
  | [], table => table
  | t :: rest, table =>
    if t.Name ∈ names then
      genIdsTaskLoop proj v projBV variant names tgs rest
        (table.AddId variant t.Name (cleanName (generateId t.Name proj projBV (revisionComponent v) v)))
    else
      match tgMapLookup tgs t.Name with
      | some tg =>
        genIdsTaskLoop proj v projBV variant names tgs rest
          (tg.Tasks.foldl (fun tb name =>
            tb.AddId variant name (cleanName (generateId name proj projBV (revisionComponent v) v))) table)
      | none => genIdsTaskLoop proj v projBV variant names tgs rest table

/-- Display-task loop of generateIdsForVariant: only display tasks present in
the requested names get an id. -/
def genIdsDisplayLoop (proj : Project) (v : Version) (projBV : BuildVariant)
    (variant : String) (names : List String) :
    List DisplayTask → TaskIdTable → TaskIdTable
  | [], table => table
  | dt :: rest, table =>
    if dt.Name ∈ names then
      genIdsDisplayLoop proj v projBV variant names rest
        (table.AddId variant dt.Name
          (cleanName (generateId ("display_" ++ dt.Name) proj projBV (revisionComponent v) v)))
    else genIdsDisplayLoop proj v projBV variant names rest table

/-- generateIdsForVariant extends the table with ids for one variant of the
requested pair set. Looking the variant up yields a possibly nil pointer that
the Go code dereferences without a check, hence the `Except`. -/
def generateIdsForVariant (vt : TVPair) (proj : Project) (v : Version)
    (tasks : List TVPair) (table : TaskIdTable) (tgs : List TaskGroup) :
    Except String TaskIdTable :=
  match proj.FindBuildVariant vt.Variant with
  | none => Except.error "runtime error: invalid memory address or nil pointer dereference"
  | some projBV =>
    let names := TVPairSet.TaskNames tasks vt.Variant
    let t1 := genIdsTaskLoop proj v projBV vt.Variant names tgs projBV.Tasks table
    Except.ok (genIdsDisplayLoop proj v projBV vt.Variant names projBV.DisplayTasks t1)

/-- Expansion step of NewPatchTaskIdTable: a selected pair whose task name is
a task-group name is replaced by one pair per member task (and dropped when
the group lookup fails); other pairs pass through unchanged. -/
def resolveTaskGroupPairs (proj : Project) (tgs : List TaskGroup) : List TVPair → List TVPair
  | [] => []
  | vt :: rest =>
    match tgMapLookup tgs vt.TaskName with
    | some _ =>
      (match proj.FindTaskGroup vt.TaskName with
       | some tg => tg.Tasks.map (fun t => TVPair.mk vt.Variant t)
       | none => []) ++ resolveTaskGroupPairs proj tgs rest
    | none => vt :: resolveTaskGroupPairs proj tgs rest

/-- Per-variant pass of NewPatchTaskIdTable: each distinct variant of the pair
list is processed once, threading the growing table. -/
def genIdsVariantsLoop (proj : Project) (v : Version) (allPairs : List TVPair)
    (tgs : List TaskGroup) :
    List TVPair → List String → TaskIdTable → Except String TaskIdTable
  | [], _, table => Except.ok table
  | vt :: rest, processed, table =>
    if vt.Variant ∈ processed then genIdsVariantsLoop proj v allPairs tgs rest processed table
    else
      match generateIdsForVariant vt proj v allPairs table tgs with
      | Except.error e => Except.error e
      | Except.ok table' => genIdsVariantsLoop proj v allPairs tgs rest (vt.Variant :: processed) table'

/-- NewPatchTaskIdTable builds the patch-scoped id tables: task-group pairs
are first expanded to their member tasks, then ids are generated per distinct
variant for the execution pairs and the display pairs. -/
def NewPatchTaskIdTable (proj : Project) (v : Version) (tasks : TaskVariantPairs) :
    Except String TaskIdConfig :=
  let tgs := proj.TaskGroups
  let execTasks := resolveTaskGroupPairs proj tgs tasks.ExecTasks
  match genIdsVariantsLoop proj v execTasks tgs execTasks [] [] with
  | Except.error e => Except.error e
  | Except.ok execTable =>
    match genIdsVariantsLoop proj v tasks.DisplayTasks tgs tasks.DisplayTasks [] [] with
    | Except.error e => Except.error e
    | Except.ok displayTable =>
      Except.ok { ExecutionTasks := execTable, DisplayTasks := displayTable }

/-- Variant-list loop of the `BuildVariants == ["all"]` expansion in
BuildProjectTVPairs: every non-disabled variant's name, in project order. -/
def allVariantsLoop : List BuildVariant → List String
  | [] => []
  | bv :: rest => if bv.Disabled then allVariantsLoop rest else bv.Name :: allVariantsLoop rest

/-- Task-list loop of the `Tasks == ["all"]` expansion in BuildProjectTVPairs:
every task whose Patchable is not explicitly false, in project order. -/
def allTasksLoop : List ProjectTask → List String
  | [] => []
  | t :: rest =>
    match t.Patchable with
    | some false => allTasksLoop rest
    | _ => t.Name :: allTasksLoop rest

/-- The wildcard expansion BuildProjectTVPairs applies to the requested
build-variant list. -/
def patchExpandVariants (p : Project) (bvs : List String) : List String :=
  if bvs = ["all"] then allVariantsLoop p.BuildVariants else bvs

/-- The wildcard expansion BuildProjectTVPairs applies to the requested task
list. -/
def patchExpandTasks (p : Project) (ts : List String) : List String :=
  if ts = ["all"] then allTasksLoop p.Tasks else ts

/-- Inner task loop of the variant x task cross product of
BuildProjectTVPairs: a pair is kept when FindTaskForVariant resolves it. -/
def crossPairsTasks (p : Project) (v : String) :
    List String → Except String (List TVPair)
  | [] => Except.ok []
  | t :: ts =>
    match p.FindTaskForVariant t v with
    | Except.error e => Except.error e
    | Except.ok found =>
      match crossPairsTasks p v ts with
      | Except.error e => Except.error e
      | Except.ok rest =>
        Except.ok (if found.isSome then TVPair.mk v t :: rest else rest)

/-- Outer variant loop of the cross product of BuildProjectTVPairs. -/
def crossPairs (p : Project) (ts : List String) :
    List String → Except String (List TVPair)
  | [] => Except.ok []
  | v :: vs =>
    match crossPairsTasks p v ts with
    | Except.error e => Except.error e
    | Except.ok here =>
      match crossPairs p ts vs with
      | Except.error e => Except.error e
      | Except.ok rest => Except.ok (here ++ rest)

/-- The selection core of BuildProjectTVPairs (its alias-free path up to the
external dependency closer): both wildcard expansions are applied to the
patch document and the cross product is filtered through FindTaskForVariant. -/
def buildProjectTVPairsCore (p : Project) (patchDoc : Patch) :
    Except String (Patch × List TVPair) :=
  let bvs := patchExpandVariants p patchDoc.BuildVariants
  let ts := patchExpandTasks p patchDoc.Tasks
  match crossPairs p ts bvs with
  | Except.error e => Except.error e
  | Except.ok pairs => Except.ok ({ BuildVariants := bvs, Tasks := ts }, pairs)

/-- State threaded through extractDisplayTasks: the growing requested-task
list, the `alreadyAdded` set, and the display-task and execution-task pair
accumulators. -/
structure EDTState where
  tasks : List String
  added : List String
  dts : List TVPair
  prs : List TVPair
deriving DecidableEq

/-- First pass of extractDisplayTasks for one variant: for every requested
task name (iterating over the list as captured at loop entry, as a Go range
does), the name of the first display task containing it is appended to the
requested-task list unless already added. -/
def edtPassOne (bv : BuildVariant) : List String → List String × List String → List String × List String
  | [], st => st
  | name :: rest, (tasks, added) =>
    let dt := bv.GetDisplayTaskNamek name
    if dt ≠ "" ∧ dt ∉ added then edtPassOne bv rest (tasks ++ [dt], added ++ [dt])
    else edtPassOne bv rest (tasks, added)

/-- Second pass of extractDisplayTasks for one variant: every display task
whose name is in the (grown) requested-task list emits a display pair and an
execution pair per member. -/
def edtPassTwo (bvName : String) (tasks : List String) :
    List DisplayTask → List TVPair × List TVPair → List TVPair × List TVPair
  | [], st => st
  | dt :: rest, (dts, prs) =>
    if dt.Name ∈ tasks then
      edtPassTwo bvName tasks rest
        (dts ++ [TVPair.mk bvName dt.Name], prs ++ dt.ExecutionTasks.map (fun et => TVPair.mk bvName et))
    else edtPassTwo bvName tasks rest (dts, prs)

/-- Variant loop of extractDisplayTasks: only variants whose name is in the
selected-variant list are processed; each processed variant runs the two
passes on the current state. -/
def edtLoop (variants : List String) : List BuildVariant → EDTState → EDTState
  | [], st => st
  | bv :: rest, st =>
    if bv.Name ∈ variants then
      let p1 := edtPassOne bv st.tasks (st.tasks, st.added)
      let p2 := edtPassTwo bv.Name p1.1 bv.DisplayTasks (st.dts, st.prs)
      edtLoop variants rest { tasks := p1.1, added := p1.2, dts := p2.1, prs := p2.2 }
    else edtLoop variants rest st

/-- extractDisplayTasks closes a raw pair set over display tasks: requested
execution tasks pull in their (first) containing display task, and requested
display tasks push out pairs for all their members. -/
def extractDisplayTasks (pairs : List TVPair) (tasks variants : List String)
    (p : Project) : TaskVariantPairs :=
  let st := edtLoop variants p.BuildVariants { tasks := tasks, added := [], dts := [], prs := pairs }
  { ExecTasks := st.prs, DisplayTasks := st.dts }

/-- Regular expressions over the fragment the embedding models of the Go
regexp package (an external library): literal characters, the dot
metacharacter, concatenation and the Kleene star. -/
inductive Regex where
  | emp : Regex
  | eps : Regex
  | lit : Char → Regex
  | dot : Regex
  | seq : Regex → Regex → Regex
  | alt : Regex → Regex → Regex
  | star : Regex → Regex
deriving DecidableEq

/-- Nullability: whether the regex accepts the empty word. -/
def Regex.nullable : Regex → Bool
  | .emp => false
  | .eps => true
  | .lit _ => false
  | .dot => false
  | .seq a b => a.nullable && b.nullable
  | .alt a b => a.nullable || b.nullable
  | .star _ => true

/-- Brzozowski derivative of a regex by one character. -/
def Regex.deriv : Regex → Char → Regex
  | .emp, _ => .emp
  | .eps, _ => .emp
  | .lit c, d => if c = d then .eps else .emp
  | .dot, _ => .eps
  | .seq a b, d =>
    if a.nullable then .alt (.seq (a.deriv d) b) (b.deriv d)
    else .seq (a.deriv d) b
  | .alt a b, d => .alt (a.deriv d) (b.deriv d)
  | .star a, d => .seq (a.deriv d) (.star a)

/-- Whether the regex matches the whole character list (anchored at both
ends), by derivatives. -/
def Regex.matchesFull : Regex → List Char → Bool
  | r, [] => r.nullable
  | r, c :: cs => (r.deriv c).matchesFull cs

/-- Whether some prefix of the character list is matched by the regex. -/
def Regex.matchesSomePre : Regex → List Char → Bool
  | r, [] => r.nullable
  | r, c :: cs => r.nullable || (r.deriv c).matchesSomePre cs

/-- Whether the regex matches starting at some position of the list: the
unanchored containment search. -/
def Regex.matchesSomewhere (r : Regex) : List Char → Bool
  | [] => r.nullable
  | c :: cs => r.matchesSomePre (c :: cs) || r.matchesSomewhere cs

/-- MatchString of the Go regexp package (an external library): true when the
string contains any match of the regex, i.e. the search is NOT anchored. -/
def Regex.MatchString (r : Regex) (s : String) : Bool :=
  r.matchesSomewhere s.data

/-- The anchored reading of pattern matching used by the specification text:
the full string is a match of the regex. -/
def regexFullMatch (r : Regex) (s : String) : Bool :=
  r.matchesFull s.data

/-- Character class accepted as a plain literal by the modelled pattern
compiler: alphanumerics, underscore and hyphen. -/
def isPlainPatternChar (c : Char) : Bool :=
  c.isAlphanum || c = '_' || c = '-'

/-- Modelled from the spec: `regexp.Compile` of the Go standard library (an
external library), restricted to a conservative fragment: plain literal
characters, `.`, and `*` applied to the preceding single-character atom.
Patterns using any other metacharacter are rejected (`none`), which in the
Go original is a compile error aborting the whole alias resolution. -/
def compileRegexChars : List Char → Option Regex
  | [] => some Regex.eps
  | c :: '*' :: rest =>
    if isPlainPatternChar c ∨ c = '.' then
      (compileRegexChars rest).map
        (Regex.seq (Regex.star (if c = '.' then Regex.dot else Regex.lit c)))
    else none
  | c :: rest =>
    if isPlainPatternChar c ∨ c = '.' then
      (compileRegexChars rest).map
        (Regex.seq (if c = '.' then Regex.dot else Regex.lit c))
    else none

/-- Pattern compilation on strings. -/
def compileRegex (s : String) : Option Regex :=
  compileRegexChars s.data

/-- An alias definition row as fetched from the alias store: a variant
pattern, a task pattern, and a tag list. -/
structure ProjectAlias where
  Variant : String
  Task : String
  Tags : List String := []
deriving DecidableEq

/-- Task loop of BuildProjectTVPairsWithAlias for one matched variant: a task
is skipped when it is patch-disabled or matches neither the (non-empty) task
pattern nor the tag set; surviving tasks contribute a pair exactly when
FindTaskForVariant resolves them on the variant. -/
def aliasTaskLoop (p : Project) (al : ProjectAlias) (taskRegex : Regex)
    (variantName : String) : List ProjectTask → Except String (List TVPair)
  | [] => Except.ok []
  | t :: rest =>
    if t.Patchable = some false then aliasTaskLoop p al taskRegex variantName rest
    else if ¬ ((al.Task ≠ "" ∧ taskRegex.MatchString t.Name = true) ∨
               (al.Tags ≠ [] ∧ stringSliceIntersection t.Tags al.Tags ≠ [])) then
      aliasTaskLoop p al taskRegex variantName rest
    else
      match p.FindTaskForVariant t.Name variantName with
      | Except.error e => Except.error e
      | Except.ok found =>
        match aliasTaskLoop p al taskRegex variantName rest with
        | Except.error e => Except.error e
        | Except.ok prs =>
          Except.ok (if found.isSome then TVPair.mk variantName t.Name :: prs else prs)

/-- Display-task loop of BuildProjectTVPairsWithAlias for one matched
variant (only reached when the alias's task pattern is non-empty): display
tasks whose name matches the task pattern contribute a display pair, with no
reachability filter. -/
def aliasDisplayLoop (taskRegex : Regex) (variantName : String) :
    List DisplayTask → List TVPair
  | [] => []
  | dt :: rest =>
    if taskRegex.MatchString dt.Name then
      TVPair.mk variantName dt.Name :: aliasDisplayLoop taskRegex variantName rest
    else aliasDisplayLoop taskRegex variantName rest

/-- Variant loop of BuildProjectTVPairsWithAlias for one alias row: variants
are selected by an unanchored MatchString of the variant pattern against the
variant name. -/
def aliasVariantLoop (p : Project) (al : ProjectAlias) (variantRegex taskRegex : Regex) :
    List BuildVariant → Except String (List TVPair × List TVPair)
  | [] => Except.ok ([], [])
  | bv :: rest =>
    if variantRegex.MatchString bv.Name then
      match aliasTaskLoop p al taskRegex bv.Name p.Tasks with
      | Except.error e => Except.error e
      | Except.ok prs =>
        let dprs := if al.Task = "" then [] else aliasDisplayLoop taskRegex bv.Name bv.DisplayTasks
        match aliasVariantLoop p al variantRegex taskRegex rest with
        | Except.error e => Except.error e
        | Except.ok st => Except.ok (prs ++ st.1, dprs ++ st.2)
    else aliasVariantLoop p al variantRegex taskRegex rest

/-- BuildProjectTVPairsWithAlias over the alias rows fetched from the
external alias store (passed in as a list): each row's patterns are compiled,
a pattern failing to compile aborts the whole resolution, and the pair
contributions of the rows are accumulated in order. -/
def BuildProjectTVPairsWithAlias (p : Project) :
    List ProjectAlias → Except String (List TVPair × List TVPair)
  | [] => Except.ok ([], [])
  | al :: rest =>
    match compileRegex al.Variant with
    | none => Except.error ("Error compiling regex: " ++ al.Variant)
    | some variantRegex =>
      match compileRegex al.Task with
      | none => Except.error ("Error compiling regex: " ++ al.Task)
      | some taskRegex =>
        match aliasVariantLoop p al variantRegex taskRegex p.BuildVariants with
        | Except.error e => Except.error e
        | Except.ok here =>
          match BuildProjectTVPairsWithAlias p rest with
          | Except.error e => Except.error e
          | Except.ok st => Except.ok (here.1 ++ st.1, here.2 ++ st.2)

/-- The exec-pair selection property realised by BuildProjectTVPairsWithAlias:
some alias row compiles, its variant pattern has a match inside the variant's
name, the task is not patch-disabled, matches the row by (non-empty) task
pattern or by tags, and resolves on the variant. -/
def aliasSelectsExec (p : Project) (rules : List ProjectAlias) (pr : TVPair) : Prop :=
  ∃ al ∈ rules, ∃ rv rt,
    compileRegex al.Variant = some rv ∧ compileRegex al.Task = some rt ∧
    ∃ bv ∈ p.BuildVariants, bv.Name = pr.Variant ∧ rv.MatchString bv.Name = true ∧
    ∃ t ∈ p.Tasks, t.Name = pr.TaskName ∧ ¬ t.Patchable = some false ∧
      ((al.Task ≠ "" ∧ rt.MatchString t.Name = true) ∨
       (al.Tags ≠ [] ∧ stringSliceIntersection t.Tags al.Tags ≠ [])) ∧
      ∃ u, p.FindTaskForVariant t.Name bv.Name = Except.ok (some u)

/-- The display-pair selection property realised by
BuildProjectTVPairsWithAlias: some alias row compiles, has a non-empty task
pattern, its variant pattern has a match inside the variant's name, and a
display task of that variant matches the task pattern; no reachability check
is involved. -/
def aliasSelectsDisplay (p : Project) (rules : List ProjectAlias) (pr : TVPair) : Prop :=
  ∃ al ∈ rules, ∃ rv rt,
    compileRegex al.Variant = some rv ∧ compileRegex al.Task = some rt ∧
    ∃ bv ∈ p.BuildVariants, bv.Name = pr.Variant ∧ rv.MatchString bv.Name = true ∧
    al.Task ≠ "" ∧
    ∃ dt ∈ bv.DisplayTasks, dt.Name = pr.TaskName ∧ rt.MatchString dt.Name = true

/-- The string sanitizer fixes a string (no character is replaced). -/
def cleanFixed (s : String) : Prop := cleanName s = s

/-- The string contains no underscore. -/
def noUnderscore (s : String) : Prop := '_' ∉ s.data

/-- Example project for C1: variant `v` lists the task group `g`, whose member
`tsk` has no project-level task definition. -/
def exC1proj : Project :=
  { Identifier := "p",
    TaskGroups := [{ Name := "g", Tasks := ["tsk"] }],
    BuildVariants := [{ Name := "v", Tasks := [{ Name := "g" }] }] }

/-- Example project for C2: one variant `ubuntu1604` carrying task `t1`. -/
def exC2proj : Project :=
  { Identifier := "proj",
    BuildVariants := [{ Name := "ubuntu1604", Tasks := [{ Name := "t1" }] }],
    Tasks := [{ Name := "t1" }] }

/-- Example alias row for C2: variant pattern `buntu`, task pattern `t1`. -/
def exC2alias : ProjectAlias := { Variant := "buntu", Task := "t1" }

/-- The compiled form of the pattern `buntu` in the modelled fragment. -/
def exC2variantRegex : Regex :=
  Regex.seq (Regex.lit 'b') (Regex.seq (Regex.lit 'u') (Regex.seq (Regex.lit 'n')
    (Regex.seq (Regex.lit 't') (Regex.seq (Regex.lit 'u') Regex.eps))))

/-- Example project for C4's witness: one enabled variant, one disabled
variant, and tasks with each patchability state. -/
def exC4proj : Project :=
  { Identifier := "p",
    BuildVariants := [{ Name := "A" }, { Name := "B", Disabled := true }],
    Tasks := [{ Name := "t1" }, { Name := "t2", Patchable := some false },
              { Name := "t3", Patchable := some true }] }

/-- Display task `d1` of C5's example: members `[e1]`; it precedes `d2`. -/
def exC5dt1 : DisplayTask := { Name := "d1", ExecutionTasks := ["e1"] }

/-- Display task `d2` of C5's example: members `[e1, e2]`. -/
def exC5dt2 : DisplayTask := { Name := "d2", ExecutionTasks := ["e1", "e2"] }

/-- The build variant of C5's example. -/
def exC5bv : BuildVariant := { Name := "v", DisplayTasks := [exC5dt1, exC5dt2] }

/-- Example project for C5: variant `v` has two display tasks sharing the
execution task `e1`; `d2` additionally carries `e2`. -/
def exC5proj : Project := { Identifier := "p", BuildVariants := [exC5bv] }

/-- Example project for C6: variant `v` lists plain task `t1` and the task
group `g` with members `m1`, `m2`. -/
def exC6proj : Project :=
  { Identifier := "p",
    TaskGroups := [{ Name := "g", Tasks := ["m1", "m2"] }],
    BuildVariants := [{ Name := "v", Tasks := [{ Name := "t1" }, { Name := "g" }] }] }

/-- Example mainline version for C6. -/
def exC6ver : Version :=
  { Id := "i", Revision := "r", Requester := "gitter_request", CreateTime := "T" }

/-- Requested pair set for C6: only (v, t1). -/
def exC6pairs : TaskVariantPairs := { ExecTasks := [{ Variant := "v", TaskName := "t1" }] }

/-- The table NewPatchTaskIdTable actually produces for C6's request. -/
def exC6cfg : TaskIdConfig :=
  { ExecutionTasks :=
      [(TVPair.mk "v" "t1", "p_v_t1_r_T"),
       (TVPair.mk "v" "m1", "p_v_m1_r_T"),
       (TVPair.mk "v" "m2", "p_v_m2_r_T")] }

/-- Example project for C7: one variant with one task. -/
def exC7proj : Project :=
  { Identifier := "p",
    BuildVariants := [{ Name := "v", Tasks := [{ Name := "t" }] }],
    Tasks := [{ Name := "t" }] }

/-- First patch version for C7: version id `a-b`. -/
def exC7verA : Version :=
  { Id := "a-b", Revision := "r", Requester := "patch_request", CreateTime := "T" }

/-- Second patch version for C7: version id `a_b`, same base revision. -/
def exC7verB : Version :=
  { Id := "a_b", Revision := "r", Requester := "patch_request", CreateTime := "T" }

/-- Mainline version used by C7's witness. -/
def exC7verM : Version :=
  { Id := "m", Revision := "r", Requester := "gitter_request", CreateTime := "T" }

/-- Example project for C8: variant `a` carries task `b_c` and variant `a_b`
carries task `c`, so the underscore-joined ids coincide. -/
def exC8proj : Project :=
  { Identifier := "p",
    BuildVariants := [{ Name := "a", DisplayName := "d1", Tasks := [{ Name := "b_c" }] },
                      { Name := "a_b", DisplayName := "d2", Tasks := [{ Name := "c" }] }] }

/-- Mainline version for C8. -/
def exC8ver : Version :=
  { Id := "i", Revision := "r", Requester := "gitter_request", CreateTime := "T" }

/-- Example project for C9: the display names are out of order, so the stable
sort inside NewTaskIdTable reorders the build-variant list. -/
def exC9proj : Project :=
  { Identifier := "p",
    BuildVariants := [{ Name := "v1", DisplayName := "b" }, { Name := "v2", DisplayName := "a" }] }

/-- Version for C9. -/
def exC9ver : Version :=
  { Id := "i", Revision := "r", Requester := "gitter_request", CreateTime := "T" }

/-- Example project for C10: the tag-matched task `t2` exists in the project
but is not listed on the variant, so it contributes no pair. -/
def exC10proj : Project :=
  { Identifier := "proj",
    BuildVariants := [{ Name := "ubuntu1604", Tasks := [{ Name := "t1" }] }],
    Tasks := [{ Name := "t1", Tags := ["unit"] }, { Name := "t2", Tags := ["unit"] }] }

/-- Example alias row for C10: selects by tag `unit` on variant
`ubuntu1604`. -/
def exC10alias : ProjectAlias := { Variant := "ubuntu1604", Task := "", Tags := ["unit"] }

/-- Membership in allVariantsLoop is the non-disabled filter, in order. -/
theorem allVariantsLoop_eq (l : List BuildVariant) :
    allVariantsLoop l = (l.filter (fun bv => bv.Disabled = false)).map BuildVariant.Name := by
  induction l with
  | nil => rfl
  | cons bv rest ih =>
    by_cases h : bv.Disabled <;> simp [allVariantsLoop, h, ih]

/-- Membership in allTasksLoop is the not-explicitly-unpatchable filter, in
order. -/
theorem allTasksLoop_eq (l : List ProjectTask) :
    allTasksLoop l = (l.filter (fun t => t.Patchable ≠ some false)).map ProjectTask.Name := by
  induction l with
  | nil => rfl
  | cons t rest ih =>
    match h : t.Patchable with
    | some false => simp [allTasksLoop, h, ih]
    | some true => simp [allTasksLoop, h, ih]
    | none => simp [allTasksLoop, h, ih]

/-- C1: FindTaskForVariant does return the nil not-found result for a missing
variant and for a task name that resolves nowhere on the variant, but when the
task is a task-group member without a ProjectTask definition it dereferences
the nil result of FindProjectTask and panics instead of returning nil. -/
theorem C1_group_member_nil_deref_panics :
    exC1proj.FindTaskForVariant "tsk" "v" =
      Except.error "runtime error: invalid memory address or nil pointer dereference" ∧
    exC1proj.FindTaskForVariant "tsk" "nosuchvariant" = Except.ok none ∧
    exC1proj.FindTaskForVariant "other" "v" = Except.ok none := by
  refine ⟨rfl, rfl, rfl⟩

/-- Populate written as a single record: each overridable field keeps the
variant's value unless that value is the zero value of its type. -/
theorem populate_normal_form (u : BuildVariantTaskUnit) (t : ProjectTask) :
    u.Populate t =
      { Name := u.Name, IsGroup := u.IsGroup, GroupName := u.GroupName,
        Patchable := (if u.Patchable = none then t.Patchable else u.Patchable),
        Priority := (if u.Priority = 0 then t.Priority else u.Priority),
        DependsOn := (if u.DependsOn = [] then t.DependsOn else u.DependsOn),
        Requires := (if u.Requires = [] then t.Requires else u.Requires),
        Distros := u.Distros,
        ExecTimeoutSecs := (if u.ExecTimeoutSecs = 0 then t.ExecTimeoutSecs else u.ExecTimeoutSecs),
        Stepback := (if u.Stepback = none then t.Stepback else u.Stepback) } := by
  simp only [BuildVariantTaskUnit.Populate]
  by_cases h1 : u.DependsOn = [] <;>
  by_cases h2 : u.Requires = [] <;>
  by_cases h3 : u.Priority = 0 <;>
  by_cases h4 : u.Patchable = none <;>
  by_cases h5 : u.ExecTimeoutSecs = 0 <;>
  by_cases h6 : u.Stepback = none <;>
  simp [h1, h2, h3, h4, h5, h6]

/-- Populate is idempotent. -/
theorem populate_idem (u : BuildVariantTaskUnit) (t : ProjectTask) :
    (u.Populate t).Populate t = u.Populate t := by
  simp only [populate_normal_form]
  by_cases h1 : u.DependsOn = [] <;>
  by_cases h2 : u.Requires = [] <;>
  by_cases h3 : u.Priority = 0 <;>
  by_cases h4 : u.Patchable = none <;>
  by_cases h5 : u.ExecTimeoutSecs = 0 <;>
  by_cases h6 : u.Stepback = none <;>
  simp [h1, h2, h3, h4, h5, h6, ite_self]

/-- C3: Populate fills DependsOn, Requires, Priority, Patchable,
ExecTimeoutSecs and Stepback from the project task only when the variant
unit's field is at its zero value, never touches the unit's other fields
(Name, group flags, Distros), and is idempotent. -/
theorem C3_populate_sparse_idempotent (u : BuildVariantTaskUnit) (t : ProjectTask) :
    (u.Populate t).Name = u.Name ∧
    (u.Populate t).IsGroup = u.IsGroup ∧
    (u.Populate t).GroupName = u.GroupName ∧
    (u.Populate t).Distros = u.Distros ∧
    (u.Populate t).DependsOn = (if u.DependsOn = [] then t.DependsOn else u.DependsOn) ∧
    (u.Populate t).Requires = (if u.Requires = [] then t.Requires else u.Requires) ∧
    (u.Populate t).Priority = (if u.Priority = 0 then t.Priority else u.Priority) ∧
    (u.Populate t).Patchable = (if u.Patchable = none then t.Patchable else u.Patchable) ∧
    (u.Populate t).ExecTimeoutSecs =
      (if u.ExecTimeoutSecs = 0 then t.ExecTimeoutSecs else u.ExecTimeoutSecs) ∧
    (u.Populate t).Stepback = (if u.Stepback = none then t.Stepback else u.Stepback) ∧
    (u.Populate t).Populate t = u.Populate t := by
  refine ⟨?_, ?_, ?_, ?_, ?_, ?_, ?_, ?_, ?_, ?_, populate_idem u t⟩ <;>
    simp [populate_normal_form]

/-- C4: the wildcard request ["all"] for variants expands to every
non-disabled variant name in project order, the wildcard request ["all"] for
tasks expands to every task whose Patchable is not explicitly false, and the
two expansions fire independently in one BuildProjectTVPairs request. -/
theorem C4_wildcard_expansion (p : Project) :
    patchExpandVariants p ["all"] =
      (p.BuildVariants.filter (fun bv => bv.Disabled = false)).map BuildVariant.Name ∧
    patchExpandTasks p ["all"] =
      (p.Tasks.filter (fun t => t.Patchable ≠ some false)).map ProjectTask.Name ∧
    (∀ doc : Patch, doc.BuildVariants = ["all"] → doc.Tasks = ["all"] →
      buildProjectTVPairsCore p doc =
        buildProjectTVPairsCore p
          { BuildVariants :=
              (p.BuildVariants.filter (fun bv => bv.Disabled = false)).map BuildVariant.Name,
            Tasks := (p.Tasks.filter (fun t => t.Patchable ≠ some false)).map ProjectTask.Name }) := by
  have hv : patchExpandVariants p ["all"] =
      (p.BuildVariants.filter (fun bv => bv.Disabled = false)).map BuildVariant.Name := by
    simp [patchExpandVariants, allVariantsLoop_eq]
  have ht : patchExpandTasks p ["all"] =
      (p.Tasks.filter (fun t => t.Patchable ≠ some false)).map ProjectTask.Name := by
    simp [patchExpandTasks, allTasksLoop_eq]
  refine ⟨hv, ht, ?_⟩
  intro doc hdv hdt
  have hv2 : patchExpandVariants p (patchExpandVariants p ["all"]) = patchExpandVariants p ["all"] := by
    by_cases h : patchExpandVariants p ["all"] = ["all"]
    · rw [h]
      exact h
    · rw [patchExpandVariants, if_neg h]
  have ht2 : patchExpandTasks p (patchExpandTasks p ["all"]) = patchExpandTasks p ["all"] := by
    by_cases h : patchExpandTasks p ["all"] = ["all"]
    · rw [h]
      exact h
    · rw [patchExpandTasks, if_neg h]
  simp only [buildProjectTVPairsCore, hdv, hdt]
  rw [← hv, ← ht, hv2, ht2]

/-- C4 witness: on the concrete example project both wildcard lists expand in
the same request, to the enabled variant and the patchable tasks. -/
theorem C4_wildcard_expansion_witness :
    buildProjectTVPairsCore exC4proj { BuildVariants := ["all"], Tasks := ["all"] } =
      buildProjectTVPairsCore exC4proj { BuildVariants := ["A"], Tasks := ["t1", "t3"] } := by
  have h := (C4_wildcard_expansion exC4proj).2.2 { BuildVariants := ["all"], Tasks := ["all"] } rfl rfl
  exact h

/-- C2 counterexample: the alias patterns are not anchored. The variant
pattern `buntu` does not match the full variant name `ubuntu1604`, yet
BuildProjectTVPairsWithAlias selects that variant (MatchString searches for a
contained match), so "selected iff the full name matches" is false. -/
theorem C2_alias_regex_not_anchored_cx :
    BuildProjectTVPairsWithAlias exC2proj [exC2alias] =
      Except.ok ([TVPair.mk "ubuntu1604" "t1"], []) ∧
    compileRegex exC2alias.Variant = some exC2variantRegex ∧
    regexFullMatch exC2variantRegex "ubuntu1604" = false ∧
    exC2variantRegex.MatchString "ubuntu1604" = true := by
  refine ⟨by rfl, by rfl, by rfl, by rfl⟩

/-- C5 counterexample: variant `v` is selected, its display task `d2` has
execution tasks `[e1, e2]`, and `e1` is requested, yet the expansion neither
emits the display pair (v, d2) nor the execution pair (v, e2), because `d1`
is the first display task containing `e1` and only it is pulled in. -/
theorem C5_second_display_task_not_selected_cx :
    exC5bv ∈ exC5proj.BuildVariants ∧ exC5bv.Name ∈ ["v"] ∧
    exC5dt2 ∈ exC5bv.DisplayTasks ∧ exC5dt2.ExecutionTasks = ["e1", "e2"] ∧
    "e1" ∈ ["e1"] ∧
    TVPair.mk "v" "d2" ∉ (extractDisplayTasks [] ["e1"] ["v"] exC5proj).DisplayTasks ∧
    TVPair.mk "v" "e2" ∉ (extractDisplayTasks [] ["e1"] ["v"] exC5proj).ExecTasks := by
  refine ⟨by decide, by decide, by decide, by decide, by decide, by decide, by decide⟩

/-- C6: on the failing input, NewPatchTaskIdTable generates ids for both
members of the task group `g` listed on variant `v`, although neither (v, m1)
nor (v, m2) was requested (only (v, t1) was, before and after group
expansion); the code's own comment says ids are generated only for tasks
"requested by the patch". -/
theorem C6_unrequested_group_members_get_ids :
    NewPatchTaskIdTable exC6proj exC6ver exC6pairs = Except.ok exC6cfg ∧
    TaskIdTable.GetId exC6cfg.ExecutionTasks "v" "m1" = "p_v_m1_r_T" ∧
    TaskIdTable.GetId exC6cfg.ExecutionTasks "v" "m2" = "p_v_m2_r_T" ∧
    TVPair.mk "v" "m1" ∉ exC6pairs.ExecTasks ∧
    TVPair.mk "v" "m1" ∉ resolveTaskGroupPairs exC6proj exC6proj.TaskGroups exC6pairs.ExecTasks ∧
    TVPair.mk "v" "m2" ∉ exC6pairs.ExecTasks ∧
    TVPair.mk "v" "m2" ∉ resolveTaskGroupPairs exC6proj exC6proj.TaskGroups exC6pairs.ExecTasks := by
  refine ⟨by rfl, by rfl, by rfl, by decide, by decide, by decide, by decide⟩

/-- C7 counterexample: two patch versions with the same base revision and
different version ids (`a-b` versus `a_b`) receive the same sanitized task
id, because the sanitizer maps the hyphen to an underscore. -/
theorem C7_sanitizer_collision_cx :
    exC7verA.Id ≠ exC7verB.Id ∧
    isPatchRequester exC7verA.Requester = true ∧
    isPatchRequester exC7verB.Requester = true ∧
    exC7verA.Revision = exC7verB.Revision ∧
    TaskIdTable.GetId (NewTaskIdTable exC7proj exC7verA).1.ExecutionTasks "v" "t" =
      TaskIdTable.GetId (NewTaskIdTable exC7proj exC7verB).1.ExecutionTasks "v" "t" ∧
    TaskIdTable.GetId (NewTaskIdTable exC7proj exC7verA).1.ExecutionTasks "v" "t" ≠ "" := by
  have hA : TaskIdTable.GetId (NewTaskIdTable exC7proj exC7verA).1.ExecutionTasks "v" "t" =
      "p_v_t_patch_r_a_b_T" := by rfl
  have hB : TaskIdTable.GetId (NewTaskIdTable exC7proj exC7verB).1.ExecutionTasks "v" "t" =
      "p_v_t_patch_r_a_b_T" := by rfl
  refine ⟨by decide, by rfl, by rfl, by rfl, by rw [hA, hB], by rw [hA]; decide⟩

/-- C8 counterexample: in one full-project table, the distinct pairs
(a, b_c) and (a_b, c) receive the byte-identical id `p_a_b_c_r_T`, because
the id joins its components with the underscore that may also occur inside
names. -/
theorem C8_underscore_collision_cx :
    TVPair.mk "a" "b_c" ≠ TVPair.mk "a_b" "c" ∧
    TaskIdTable.GetId (NewTaskIdTable exC8proj exC8ver).1.ExecutionTasks "a" "b_c" =
      TaskIdTable.GetId (NewTaskIdTable exC8proj exC8ver).1.ExecutionTasks "a_b" "c" ∧
    TaskIdTable.GetId (NewTaskIdTable exC8proj exC8ver).1.ExecutionTasks "a" "b_c" = "p_a_b_c_r_T" := by
  refine ⟨by decide, by rfl, by rfl⟩

/-- C9 counterexample: NewTaskIdTable mutates the project it is given: the
stable sort by display name reorders p.BuildVariants, so the order of the
stored build-variant list is not the same after the call. -/
theorem C9_build_variants_reordered_cx :
    (NewTaskIdTable exC9proj exC9ver).2.BuildVariants ≠ exC9proj.BuildVariants ∧
    (NewTaskIdTable exC9proj exC9ver).2.BuildVariants.map BuildVariant.Name = ["v2", "v1"] ∧
    exC9proj.BuildVariants.map BuildVariant.Name = ["v1", "v2"] := by
  have hs : (NewTaskIdTable exC9proj exC9ver).2.BuildVariants =
      [{ Name := "v2", DisplayName := "a" }, { Name := "v1", DisplayName := "b" }] := by rfl
  refine ⟨by rw [hs]; decide, by rw [hs]; rfl, by decide⟩

/-- Transitivity of the lexicographic strictly-less on character lists. -/
theorem strLtChars_trans : ∀ a b c : List Char,
    strLtChars a b = true → strLtChars b c = true → strLtChars a c = true := by
  intro a
  induction a with
  | nil =>
    intro b c h1 h2
    cases b with
    | nil => simp [strLtChars] at h1
    | cons bh bt =>
      cases c with
      | nil => simp [strLtChars] at h2
      | cons ch ct => simp [strLtChars]
  | cons ah rest ih =>
    intro b c h1 h2
    cases b with
    | nil => simp [strLtChars] at h1
    | cons bh bt =>
      cases c with
      | nil => simp [strLtChars] at h2
      | cons ch ct =>
        simp only [strLtChars] at h1 h2 ⊢
        rcases Nat.lt_trichotomy ah.toNat bh.toNat with hab | hab | hab
        · rcases Nat.lt_trichotomy bh.toNat ch.toNat with hbc | hbc | hbc
          · have hac : ah.toNat < ch.toNat := by omega
            rw [if_pos hac]
          · have hac : ah.toNat < ch.toNat := by omega
            rw [if_pos hac]
          · rw [if_neg (by omega), if_pos (by omega)] at h2
            exact absurd h2 (by simp)
        · rw [if_neg (by omega), if_neg (by omega)] at h1
          rcases Nat.lt_trichotomy bh.toNat ch.toNat with hbc | hbc | hbc
          · have hac : ah.toNat < ch.toNat := by omega
            rw [if_pos hac]
          · rw [if_neg (by omega), if_neg (by omega)] at h2
            rw [if_neg (by omega), if_neg (by omega)]
            exact ih bt ct h1 h2
          · rw [if_neg (by omega), if_pos (by omega)] at h2
            exact absurd h2 (by simp)
        · rw [if_neg (by omega), if_pos (by omega)] at h1
          exact absurd h1 (by simp)

/-- Asymmetry of the lexicographic strictly-less on character lists. -/
theorem strLtChars_asymm : ∀ a b : List Char,
    strLtChars a b = true → strLtChars b a = false := by
  intro a
  induction a with
  | nil =>
    intro b h
    cases b with
    | nil => simp [strLtChars] at h
    | cons bh bt => simp [strLtChars]
  | cons ah rest ih =>
    intro b h
    cases b with
    | nil => simp [strLtChars] at h
    | cons bh bt =>
      simp only [strLtChars] at h ⊢
      rcases Nat.lt_trichotomy ah.toNat bh.toNat with hab | hab | hab
      · rw [if_neg (by omega), if_pos (by omega)]
      · rw [if_neg (by omega), if_neg (by omega)] at h
        rw [if_neg (by omega), if_neg (by omega)]
        exact ih bt h
      · rw [if_neg (by omega), if_pos (by omega)] at h
        exact absurd h (by simp)

/-- Transitivity of the build-variant comparator. -/
theorem displayNameLt_trans {a b c : BuildVariant}
    (h1 : displayNameLt a b = true) (h2 : displayNameLt b c = true) :
    displayNameLt a c = true :=
  strLtChars_trans _ _ _ h1 h2

/-- Asymmetry of the build-variant comparator. -/
theorem displayNameLt_asymm {a b : BuildVariant}
    (h : displayNameLt a b = true) : displayNameLt b a = false :=
  strLtChars_asymm _ _ h

/-- Membership through stable insertion. -/
theorem mem_insertByDisplayName {w x : BuildVariant} : ∀ l : List BuildVariant,
    w ∈ insertByDisplayName x l ↔ w = x ∨ w ∈ l := by
  intro l
  induction l with
  | nil => simp [insertByDisplayName]
  | cons y ys ih =>
    by_cases h : displayNameLt x y = true
    · simp [insertByDisplayName, h]
      try tauto
    · simp only [insertByDisplayName, h, if_false]
      simp [ih]
      try tauto

/-- Stable insertion permutes the inserted cons. -/
theorem perm_insertByDisplayName (x : BuildVariant) : ∀ l : List BuildVariant,
    (insertByDisplayName x l).Perm (x :: l) := by
  intro l
  induction l with
  | nil => simp [insertByDisplayName]
  | cons y ys ih =>
    by_cases h : displayNameLt x y = true
    · simp [insertByDisplayName, h]
    · simp only [insertByDisplayName, h, if_false]
      exact (ih.cons y).trans (List.Perm.swap x y ys)

/-- The stable sort is a permutation of its input. -/
theorem perm_sortByDisplayName : ∀ l : List BuildVariant,
    (sortByDisplayName l).Perm l := by
  intro l
  induction l with
  | nil => simp [sortByDisplayName]
  | cons x xs ih =>
    exact (perm_insertByDisplayName x (sortByDisplayName xs)).trans (ih.cons x)

/-- Stable insertion preserves sortedness (no later element strictly smaller
by display name). -/
theorem pairwise_insertByDisplayName (x : BuildVariant) : ∀ l : List BuildVariant,
    List.Pairwise (fun a b => displayNameLt b a = false) l →
    List.Pairwise (fun a b => displayNameLt b a = false) (insertByDisplayName x l) := by
  intro l
  induction l with
  | nil =>
    intro _
    simp [insertByDisplayName]
  | cons y ys ih =>
    intro h
    rcases List.pairwise_cons.mp h with ⟨hy, hys⟩
    by_cases c : displayNameLt x y = true
    · simp only [insertByDisplayName, c, if_true]
      refine List.pairwise_cons.mpr ⟨?_, h⟩
      intro w hw
      rcases List.mem_cons.mp hw with rfl | hwys
      · exact displayNameLt_asymm c
      · by_contra hne
        have hwx : displayNameLt w x = true := by
          cases hval : displayNameLt w x
          · exact absurd hval hne
          · rfl
        have : displayNameLt w y = true := displayNameLt_trans hwx c
        rw [hy w hwys] at this
        exact Bool.false_ne_true this
    · have c' : displayNameLt x y = false := by
        cases hval : displayNameLt x y
        · rfl
        · exact absurd hval c
      simp only [insertByDisplayName, c, if_false]
      refine List.pairwise_cons.mpr ⟨?_, ih hys⟩
      intro w hw
      rcases (mem_insertByDisplayName _).mp hw with rfl | hwys
      · exact c'
      · exact hy w hwys

/-- The stable sort is sorted by display name. -/
theorem pairwise_sortByDisplayName : ∀ l : List BuildVariant,
    List.Pairwise (fun a b => displayNameLt b a = false) (sortByDisplayName l) := by
  intro l
  induction l with
  | nil => simp [sortByDisplayName]
  | cons x xs ih => exact pairwise_insertByDisplayName x _ ih

/-- C9 (amended): NewTaskIdTable leaves the project's identifier, task list
and task-group list untouched and only permutes `p.BuildVariants`, sorting it
stably by display name; the patch-scoped table and the pair selection are
read-only by construction in this embedding. -/
theorem C9_project_preserved_except_sort (p : Project) (v : Version) :
    (NewTaskIdTable p v).2.Identifier = p.Identifier ∧
    (NewTaskIdTable p v).2.Tasks = p.Tasks ∧
    (NewTaskIdTable p v).2.TaskGroups = p.TaskGroups ∧
    (NewTaskIdTable p v).2.BuildVariants.Perm p.BuildVariants ∧
    List.Pairwise (fun a b => displayNameLt b a = false) (NewTaskIdTable p v).2.BuildVariants := by
  refine ⟨rfl, rfl, rfl, ?_, ?_⟩
  · exact perm_sortByDisplayName p.BuildVariants
  · exact pairwise_sortByDisplayName p.BuildVariants

/-- Data of a sanitized string. -/
theorem cleanName_data (s : String) : (cleanName s).data = s.data.map cleanChar := rfl

/-- The sanitizer distributes over concatenation. -/
theorem cleanName_append (a b : String) : cleanName (a ++ b) = cleanName a ++ cleanName b := by
  apply String.ext
  simp [cleanName, String.data_append]

/-- The sanitizer preserves length. -/
theorem cleanName_length (s : String) : (cleanName s).data.length = s.data.length := by
  simp [cleanName]

/-- Strings of different lengths stay different after sanitization. -/
theorem cleanName_ne_of_length_ne {s t : String} (h : s.data.length ≠ t.data.length) :
    cleanName s ≠ cleanName t := by
  intro he
  apply h
  have := congrArg (fun u => u.data.length) he
  simpa [cleanName] using this

/-- Cancelling an identical sanitized prefix and suffix around a
sanitizer-fixed middle recovers the middle. -/
theorem clean_mid_inj (pre suf x y : String) (hx : cleanFixed x) (hy : cleanFixed y)
    (h : cleanName (pre ++ x ++ suf) = cleanName (pre ++ y ++ suf)) : x = y := by
  have hx' : cleanName x = x := hx
  have hy' : cleanName y = y := hy
  have hd : (cleanName (pre ++ x ++ suf)).data = (cleanName (pre ++ y ++ suf)).data :=
    congrArg String.data h
  simp only [cleanName_data, String.data_append, List.map_append, List.append_assoc] at hd
  have h1 := List.append_cancel_left hd
  have h2 := List.append_cancel_right h1
  have h3 : cleanName x = cleanName y := by
    apply String.ext
    simpa [cleanName_data] using h2
  rw [hx', hy'] at h3
  exact h3

/-- Cancelling an identical suffix after a sanitizer-fixed head. -/
theorem clean_left_inj (suf x y : String) (hx : cleanFixed x) (hy : cleanFixed y)
    (h : cleanName (x ++ suf) = cleanName (y ++ suf)) : x = y := by
  have hx' : cleanName x = x := hx
  have hy' : cleanName y = y := hy
  have hd : (cleanName (x ++ suf)).data = (cleanName (y ++ suf)).data := congrArg String.data h
  simp only [cleanName_data, String.data_append, List.map_append] at hd
  have h2 := List.append_cancel_right hd
  have h3 : cleanName x = cleanName y := by
    apply String.ext
    simpa [cleanName_data] using h2
  rw [hx', hy'] at h3
  exact h3

/-- Cancelling an identical prefix before a sanitizer-fixed tail. -/
theorem clean_right_inj (pre x y : String) (hx : cleanFixed x) (hy : cleanFixed y)
    (h : cleanName (pre ++ x) = cleanName (pre ++ y)) : x = y := by
  have hx' : cleanName x = x := hx
  have hy' : cleanName y = y := hy
  have hd : (cleanName (pre ++ x)).data = (cleanName (pre ++ y)).data := congrArg String.data h
  simp only [cleanName_data, String.data_append, List.map_append] at hd
  have h2 := List.append_cancel_left hd
  have h3 : cleanName x = cleanName y := by
    apply String.ext
    simpa [cleanName_data] using h2
  rw [hx', hy'] at h3
  exact h3

/-- Splitting at the first underscore: underscore-free heads followed by an
underscore determine each other. -/
theorem usc_split : ∀ (a b : List Char) (y z : List Char),
    (∀ c ∈ a, c ≠ '_') → (∀ c ∈ b, c ≠ '_') →
    a ++ '_' :: y = b ++ '_' :: z → a = b ∧ y = z := by
  intro a
  induction a with
  | nil =>
    intro b y z _ hb h
    cases b with
    | nil => simpa using h
    | cons bh bt =>
      simp only [List.nil_append, List.cons_append, List.cons.injEq] at h
      exact absurd h.1.symm (hb bh (List.mem_cons_self bh bt))
  | cons ahd atl ih =>
    intro b y z ha hb h
    cases b with
    | nil =>
      simp only [List.nil_append, List.cons_append, List.cons.injEq] at h
      exact absurd h.1 (ha ahd (List.mem_cons_self ahd atl))
    | cons bh bt =>
      simp only [List.cons_append, List.cons.injEq] at h
      have hrest := ih bt y z (fun c hc => ha c (List.mem_cons_of_mem _ hc))
        (fun c hc => hb c (List.mem_cons_of_mem _ hc)) h.2
      exact ⟨by rw [h.1, hrest.1], hrest.2⟩

/-- Membership in a fold that appends per-element contributions. -/
theorem mem_foldl_append {α β : Type} (f : β → List α) :
    ∀ (l : List β) (init : List α) (x : α),
      x ∈ l.foldl (fun acc b => acc ++ f b) init → x ∈ init ∨ ∃ b, b ∈ l ∧ x ∈ f b := by
  intro l
  induction l with
  | nil =>
    intro init x h
    exact Or.inl h
  | cons b bl ih =>
    intro init x h
    rcases ih (init ++ f b) x h with h' | ⟨b', hb', hx⟩
    · rcases List.mem_append.mp h' with h'' | h''
      · exact Or.inl h''
      · exact Or.inr ⟨b, List.mem_cons_self b bl, h''⟩
    · exact Or.inr ⟨b', List.mem_cons_of_mem _ hb', hx⟩

/-- Every entry one variant contributes to the full-project execution table
keys that variant's name and stores the sanitized join of its own key
components. -/
theorem execIdsForVariant_mem (p : Project) (v : Version) (bv : BuildVariant) :
    ∀ (l : List BuildVariantTaskUnit) (e : TVPair × String), e ∈ execIdsForVariant p v bv l →
      e.1.Variant = bv.Name ∧
      e.2 = cleanName (generateId e.1.TaskName p bv (revisionComponent v) v) := by
  intro l
  induction l with
  | nil =>
    intro e h
    simp [execIdsForVariant] at h
  | cons t rest ih =>
    intro e h
    rcases htg : p.FindTaskGroup t.Name with _ | tg <;> rw [execIdsForVariant, htg] at h
    · rcases List.mem_cons.mp h with rfl | h'
      · exact ⟨rfl, rfl⟩
      · exact ih e h'
    · rcases List.mem_append.mp h with h' | h'
      · rcases List.mem_map.mp h' with ⟨g, _, rfl⟩
        exact ⟨rfl, rfl⟩
      · exact ih e h'

/-- Every entry of the full-project execution table stores the sanitized join
of the project identifier, its own variant name, its own task name, the
revision component and the creation time. -/
theorem NewTaskIdTable_exec_entry (p : Project) (v : Version) (e : TVPair × String)
    (h : e ∈ (NewTaskIdTable p v).1.ExecutionTasks) :
    e.2 = cleanName (p.Identifier ++ "_" ++ e.1.Variant ++ "_" ++ e.1.TaskName ++ "_" ++
      revisionComponent v ++ "_" ++ v.CreateTime) := by
  have h' := mem_foldl_append _ (sortByDisplayName p.BuildVariants) [] e h
  rcases h' with h0 | ⟨bv, _, he⟩
  · simp at h0
  · rcases execIdsForVariant_mem _ v bv bv.Tasks e he with ⟨hvname, hval⟩
    rw [hval]
    simp [generateId, hvname]

/-- C7 (amended): every execution-task id of the full-project table is the
sanitized join of identifier, variant, task, revision component and creation
time, with the revision component patch-namespaced exactly for patch-type
requesters; a patch-built id always differs from the mainline id of the same
(variant, task, revision); and two patches from one base revision with
different version ids get different ids provided the version ids are
unchanged by the sanitizer (the counterexample shows the unrestricted claim
fails when sanitization conflates the ids). -/
theorem C7_id_format_and_patch_namespacing :
    (∀ (p : Project) (v : Version) (e : TVPair × String),
      e ∈ (NewTaskIdTable p v).1.ExecutionTasks →
      e.2 = cleanName (p.Identifier ++ "_" ++ e.1.Variant ++ "_" ++ e.1.TaskName ++ "_" ++
        (if isPatchRequester v.Requester then "patch_" ++ v.Revision ++ "_" ++ v.Id
         else v.Revision) ++ "_" ++ v.CreateTime)) ∧
    (∀ (p : Project) (bv : BuildVariant) (n : String) (vp vm : Version),
      isPatchRequester vp.Requester = true → isPatchRequester vm.Requester = false →
      vp.Revision = vm.Revision → vp.CreateTime = vm.CreateTime →
      cleanName (generateId n p bv (revisionComponent vp) vp) ≠
        cleanName (generateId n p bv (revisionComponent vm) vm)) ∧
    (∀ (p : Project) (bv : BuildVariant) (n : String) (v1 v2 : Version),
      isPatchRequester v1.Requester = true → isPatchRequester v2.Requester = true →
      v1.Revision = v2.Revision → v1.CreateTime = v2.CreateTime →
      cleanFixed v1.Id → cleanFixed v2.Id → v1.Id ≠ v2.Id →
      cleanName (generateId n p bv (revisionComponent v1) v1) ≠
        cleanName (generateId n p bv (revisionComponent v2) v2)) := by
  refine ⟨?_, ?_, ?_⟩
  · intro p v e he
    exact NewTaskIdTable_exec_entry p v e he
  · intro p bv n vp vm hp hm hrev hct
    have r1 : revisionComponent vp = "patch_" ++ vp.Revision ++ "_" ++ vp.Id := by
      simp [revisionComponent, hp]
    have r2 : revisionComponent vm = vm.Revision := by
      simp [revisionComponent, hm]
    apply cleanName_ne_of_length_ne
    rw [generateId, generateId, r1, r2, hrev, hct]
    have hlp : ("patch_" : String).data.length = 6 := by decide
    have hlu : ("_" : String).data.length = 1 := by decide
    simp only [String.data_append, List.length_append, hlp, hlu]
    omega
  · intro p bv n v1 v2 h1 h2 hrev hct hf1 hf2 hne h
    apply hne
    refine clean_mid_inj
      (p.Identifier ++ "_" ++ bv.Name ++ "_" ++ n ++ "_" ++ "patch_" ++ v2.Revision ++ "_")
      ("_" ++ v2.CreateTime) v1.Id v2.Id hf1 hf2 ?_
    have r1 : revisionComponent v1 = "patch_" ++ v1.Revision ++ "_" ++ v1.Id := by
      simp [revisionComponent, h1]
    have r2 : revisionComponent v2 = "patch_" ++ v2.Revision ++ "_" ++ v2.Id := by
      simp [revisionComponent, h2]
    have e1 : p.Identifier ++ "_" ++ bv.Name ++ "_" ++ n ++ "_" ++ "patch_" ++ v2.Revision ++ "_"
        ++ v1.Id ++ ("_" ++ v2.CreateTime) = generateId n p bv (revisionComponent v1) v1 := by
      rw [generateId, r1, hrev, hct]
      simp only [String.append_assoc]
    have e2 : p.Identifier ++ "_" ++ bv.Name ++ "_" ++ n ++ "_" ++ "patch_" ++ v2.Revision ++ "_"
        ++ v2.Id ++ ("_" ++ v2.CreateTime) = generateId n p bv (revisionComponent v2) v2 := by
      rw [generateId, r2]
      simp only [String.append_assoc]
    rw [e1, e2]
    exact h

/-- C7 witness: on the concrete single-task project, the patch version and
the mainline version with the same revision and creation time produce
different sanitized ids. -/
theorem C7_patch_vs_mainline_witness :
    cleanName (generateId "t" exC7proj { Name := "v" } (revisionComponent exC7verA) exC7verA) ≠
      cleanName (generateId "t" exC7proj { Name := "v" } (revisionComponent exC7verM) exC7verM) :=
  C7_id_format_and_patch_namespacing.2.1 exC7proj { Name := "v" } "t" exC7verA exC7verM
    (by rfl) (by rfl) (by rfl) (by rfl)

/-- C8 (amended): id generation is a pure function (determinism is trivial in
the embedding); changing exactly one of identifier, variant name, task name,
revision or creation time changes the sanitized id whenever the inputs are
unchanged by the sanitizer; and within one full-project table two distinct
(variant, task) pairs receive different ids provided the variant names are
underscore-free and the names are unchanged by the sanitizer (the
counterexample shows the unrestricted claim fails through underscore
injection). -/
theorem C8_id_injective_on_clean_inputs :
    (∀ (p q : Project) (bv : BuildVariant) (n rev : String) (v : Version),
      cleanFixed p.Identifier → cleanFixed q.Identifier → p.Identifier ≠ q.Identifier →
      cleanName (generateId n p bv rev v) ≠ cleanName (generateId n q bv rev v)) ∧
    (∀ (p : Project) (bv bw : BuildVariant) (n rev : String) (v : Version),
      cleanFixed bv.Name → cleanFixed bw.Name → bv.Name ≠ bw.Name →
      cleanName (generateId n p bv rev v) ≠ cleanName (generateId n p bw rev v)) ∧
    (∀ (p : Project) (bv : BuildVariant) (n m rev : String) (v : Version),
      cleanFixed n → cleanFixed m → n ≠ m →
      cleanName (generateId n p bv rev v) ≠ cleanName (generateId m p bv rev v)) ∧
    (∀ (p : Project) (bv : BuildVariant) (n rev1 rev2 : String) (v : Version),
      cleanFixed rev1 → cleanFixed rev2 → rev1 ≠ rev2 →
      cleanName (generateId n p bv rev1 v) ≠ cleanName (generateId n p bv rev2 v)) ∧
    (∀ (p : Project) (bv : BuildVariant) (n rev : String) (v w : Version),
      cleanFixed v.CreateTime → cleanFixed w.CreateTime → v.CreateTime ≠ w.CreateTime →
      cleanName (generateId n p bv rev v) ≠ cleanName (generateId n p bv rev w)) ∧
    (∀ (p : Project) (v : Version) (e1 e2 : TVPair × String),
      e1 ∈ (NewTaskIdTable p v).1.ExecutionTasks →
      e2 ∈ (NewTaskIdTable p v).1.ExecutionTasks →
      cleanFixed e1.1.Variant → cleanFixed e2.1.Variant →
      noUnderscore e1.1.Variant → noUnderscore e2.1.Variant →
      cleanFixed e1.1.TaskName → cleanFixed e2.1.TaskName →
      e1.2 = e2.2 → e1.1 = e2.1) := by
  refine ⟨?_, ?_, ?_, ?_, ?_, ?_⟩
  · intro p q bv n rev v hp hq hne h
    apply hne
    refine clean_left_inj ("_" ++ bv.Name ++ "_" ++ n ++ "_" ++ rev ++ "_" ++ v.CreateTime)
      p.Identifier q.Identifier hp hq ?_
    have e1 : p.Identifier ++ ("_" ++ bv.Name ++ "_" ++ n ++ "_" ++ rev ++ "_" ++ v.CreateTime) =
        generateId n p bv rev v := by
      rw [generateId]
      simp only [String.append_assoc]
    have e2 : q.Identifier ++ ("_" ++ bv.Name ++ "_" ++ n ++ "_" ++ rev ++ "_" ++ v.CreateTime) =
        generateId n q bv rev v := by
      rw [generateId]
      simp only [String.append_assoc]
    rw [e1, e2]
    exact h
  · intro p bv bw n rev v hv hw hne h
    apply hne
    refine clean_mid_inj (p.Identifier ++ "_") ("_" ++ n ++ "_" ++ rev ++ "_" ++ v.CreateTime)
      bv.Name bw.Name hv hw ?_
    have e1 : p.Identifier ++ "_" ++ bv.Name ++ ("_" ++ n ++ "_" ++ rev ++ "_" ++ v.CreateTime) =
        generateId n p bv rev v := by
      rw [generateId]
      simp only [String.append_assoc]
    have e2 : p.Identifier ++ "_" ++ bw.Name ++ ("_" ++ n ++ "_" ++ rev ++ "_" ++ v.CreateTime) =
        generateId n p bw rev v := by
      rw [generateId]
      simp only [String.append_assoc]
    rw [e1, e2]
    exact h
  · intro p bv n m rev v hn hm hne h
    apply hne
    refine clean_mid_inj (p.Identifier ++ "_" ++ bv.Name ++ "_")
      ("_" ++ rev ++ "_" ++ v.CreateTime) n m hn hm ?_
    have e1 : p.Identifier ++ "_" ++ bv.Name ++ "_" ++ n ++ ("_" ++ rev ++ "_" ++ v.CreateTime) =
        generateId n p bv rev v := by
      rw [generateId]
      simp only [String.append_assoc]
    have e2 : p.Identifier ++ "_" ++ bv.Name ++ "_" ++ m ++ ("_" ++ rev ++ "_" ++ v.CreateTime) =
        generateId m p bv rev v := by
      rw [generateId]
      simp only [String.append_assoc]
    rw [e1, e2]
    exact h
  · intro p bv n rev1 rev2 v h1 h2 hne h
    apply hne
    refine clean_mid_inj (p.Identifier ++ "_" ++ bv.Name ++ "_" ++ n ++ "_")
      ("_" ++ v.CreateTime) rev1 rev2 h1 h2 ?_
    have e1 : p.Identifier ++ "_" ++ bv.Name ++ "_" ++ n ++ "_" ++ rev1 ++ ("_" ++ v.CreateTime) =
        generateId n p bv rev1 v := by
      rw [generateId]
      simp only [String.append_assoc]
    have e2 : p.Identifier ++ "_" ++ bv.Name ++ "_" ++ n ++ "_" ++ rev2 ++ ("_" ++ v.CreateTime) =
        generateId n p bv rev2 v := by
      rw [generateId]
      simp only [String.append_assoc]
    rw [e1, e2]
    exact h
  · intro p bv n rev v w h1 h2 hne h
    apply hne
    exact clean_right_inj (p.Identifier ++ "_" ++ bv.Name ++ "_" ++ n ++ "_" ++ rev ++ "_")
      v.CreateTime w.CreateTime h1 h2 h
  · intro p v e1 e2 he1 he2 cf1 cf2 nu1 nu2 ct1 ct2 heq
    have f1 := NewTaskIdTable_exec_entry p v e1 he1
    have f2 := NewTaskIdTable_exec_entry p v e2 he2
    rw [f1, f2] at heq
    have hd := congrArg String.data heq
    have m1 : e1.1.Variant.data.map cleanChar = e1.1.Variant.data := congrArg String.data cf1
    have m2 : e2.1.Variant.data.map cleanChar = e2.1.Variant.data := congrArg String.data cf2
    have m3 : e1.1.TaskName.data.map cleanChar = e1.1.TaskName.data := congrArg String.data ct1
    have m4 : e2.1.TaskName.data.map cleanChar = e2.1.TaskName.data := congrArg String.data ct2
    have hu : cleanChar '_' = '_' := by decide
    simp only [cleanName_data, String.data_append, List.map_append, List.map_cons,
      List.map_nil, List.nil_append, List.append_assoc, List.cons_append,
      List.singleton_append, m1, m2, m3, m4, hu] at hd
    have h1 := List.append_cancel_left hd
    simp only [List.cons.injEq, true_and] at h1
    have h2 := usc_split e1.1.Variant.data e2.1.Variant.data _ _
      (fun c hc hceq => nu1 (hceq ▸ hc)) (fun c hc hceq => nu2 (hceq ▸ hc)) h1
    have h4 : e1.1.TaskName.data = e2.1.TaskName.data := List.append_cancel_right h2.2
    have hveq : e1.1.Variant = e2.1.Variant := String.ext h2.1
    have hteq : e1.1.TaskName = e2.1.TaskName := String.ext h4
    cases he : e1.1 with
    | mk va ta =>
      cases hf : e2.1 with
      | mk vb tb =>
        rw [he, hf] at hveq hteq
        simp only at hveq hteq
        rw [hveq, hteq]

/-- C8 witness: on the concrete project, changing only the revision changes
the sanitized id. -/
theorem C8_revision_changes_id_witness :
    cleanName (generateId "t" exC8proj { Name := "v" } "r1" exC8ver) ≠
      cleanName (generateId "t" exC8proj { Name := "v" } "r2" exC8ver) :=
  C8_id_injective_on_clean_inputs.2.2.2.1 exC8proj { Name := "v" } "t" "r1" "r2" exC8ver
    (show cleanName "r1" = "r1" by decide) (show cleanName "r2" = "r2" by decide) (by decide)

/-- Membership characterization of the alias task loop for one variant: a
pair is produced exactly for tasks of the scanned list that are not
patch-disabled, match the row by pattern or tags, and resolve on the
variant. -/
theorem aliasTaskLoop_mem (p : Project) (al : ProjectAlias) (rt : Regex) (vn : String) :
    ∀ (tl : List ProjectTask) (l : List TVPair),
      aliasTaskLoop p al rt vn tl = Except.ok l →
      ∀ pr : TVPair, pr ∈ l ↔ (pr.Variant = vn ∧ ∃ t, t ∈ tl ∧ t.Name = pr.TaskName ∧
        ¬ t.Patchable = some false ∧
        ((al.Task ≠ "" ∧ rt.MatchString t.Name = true) ∨
         (al.Tags ≠ [] ∧ stringSliceIntersection t.Tags al.Tags ≠ [])) ∧
        ∃ u, p.FindTaskForVariant t.Name vn = Except.ok (some u)) := by
  intro tl
  induction tl with
  | nil =>
    intro l h pr
    rw [aliasTaskLoop] at h
    simp only [Except.ok.injEq] at h
    subst h
    simp
  | cons t rest ih =>
    intro l h pr
    by_cases c1 : t.Patchable = some false
    · rw [aliasTaskLoop, if_pos c1] at h
      rw [ih l h pr]
      constructor
      · rintro ⟨hv, t', ht', hrest⟩
        exact ⟨hv, t', List.mem_cons_of_mem _ ht', hrest⟩
      · rintro ⟨hv, t', ht', hname, hpatch, hcond, hu⟩
        rcases List.mem_cons.mp ht' with rfl | ht''
        · exact absurd c1 hpatch
        · exact ⟨hv, t', ht'', hname, hpatch, hcond, hu⟩
    · by_cases c2 : ((al.Task ≠ "" ∧ rt.MatchString t.Name = true) ∨
          (al.Tags ≠ [] ∧ stringSliceIntersection t.Tags al.Tags ≠ []))
      · rw [aliasTaskLoop, if_neg c1, if_neg (not_not_intro c2)] at h
        rcases hf : p.FindTaskForVariant t.Name vn with e | found
        · rw [hf] at h
          simp at h
        · rw [hf] at h
          rcases hrec : aliasTaskLoop p al rt vn rest with e2 | prs
          · rw [hrec] at h
            simp at h
          · rw [hrec] at h
            simp only [Except.ok.injEq] at h
            rcases found with _ | u
            · simp only [Option.isSome_none, Bool.false_eq_true, if_false] at h
              subst h
              rw [ih prs hrec pr]
              constructor
              · rintro ⟨hv, t', ht', hrest⟩
                exact ⟨hv, t', List.mem_cons_of_mem _ ht', hrest⟩
              · rintro ⟨hv, t', ht', hname, hpatch, hcond, u, hu⟩
                rcases List.mem_cons.mp ht' with rfl | ht''
                · rw [hu] at hf
                  simp at hf
                · exact ⟨hv, t', ht'', hname, hpatch, hcond, u, hu⟩
            · simp only [Option.isSome_some, if_true] at h
              subst h
              constructor
              · intro hmem
                rcases List.mem_cons.mp hmem with rfl | hmem'
                · exact ⟨rfl, t, List.mem_cons_self t rest, rfl, c1, c2, u, hf⟩
                · rcases (ih prs hrec pr).mp hmem' with ⟨hv, t', ht', hrest⟩
                  exact ⟨hv, t', List.mem_cons_of_mem _ ht', hrest⟩
              · rintro ⟨hv, t', ht', hname, hpatch, hcond, u', hu⟩
                rcases List.mem_cons.mp ht' with rfl | ht''
                · have : pr = TVPair.mk vn t'.Name := by
                    cases pr
                    simp only at hv hname
                    rw [hv, ← hname]
                  rw [this, hname]
                  exact List.mem_cons_self _ _
                · exact List.mem_cons_of_mem _
                    ((ih prs hrec pr).mpr ⟨hv, t', ht'', hname, hpatch, hcond, u', hu⟩)
      · rw [aliasTaskLoop, if_neg c1, if_pos c2] at h
        rw [ih l h pr]
        constructor
        · rintro ⟨hv, t', ht', hrest⟩
          exact ⟨hv, t', List.mem_cons_of_mem _ ht', hrest⟩
        · rintro ⟨hv, t', ht', hname, hpatch, hcond, hu⟩
          rcases List.mem_cons.mp ht' with rfl | ht''
          · exact absurd hcond c2
          · exact ⟨hv, t', ht'', hname, hpatch, hcond, hu⟩

/-- Membership characterization of the alias display loop: display pairs
are produced exactly for display tasks whose name matches the task pattern,
with no reachability condition. -/
theorem aliasDisplayLoop_mem (rt : Regex) (vn : String) :
    ∀ (dtl : List DisplayTask) (pr : TVPair),
      pr ∈ aliasDisplayLoop rt vn dtl ↔
        (pr.Variant = vn ∧ ∃ dt, dt ∈ dtl ∧ dt.Name = pr.TaskName ∧
          rt.MatchString dt.Name = true) := by
  intro dtl
  induction dtl with
  | nil =>
    intro pr
    simp [aliasDisplayLoop]
  | cons dt rest ih =>
    intro pr
    by_cases c : rt.MatchString dt.Name = true
    · rw [aliasDisplayLoop, if_pos c]
      constructor
      · intro hmem
        rcases List.mem_cons.mp hmem with rfl | hmem'
        · exact ⟨rfl, dt, List.mem_cons_self dt rest, rfl, c⟩
        · rcases (ih pr).mp hmem' with ⟨hv, dt', hdt', hrest⟩
          exact ⟨hv, dt', List.mem_cons_of_mem _ hdt', hrest⟩
      · rintro ⟨hv, dt', hdt', hname, hmatch⟩
        rcases List.mem_cons.mp hdt' with rfl | hdt''
        · have : pr = TVPair.mk vn dt'.Name := by
            cases pr
            simp only at hv hname
            rw [hv, ← hname]
          rw [this, hname]
          exact List.mem_cons_self _ _
        · exact List.mem_cons_of_mem _ ((ih pr).mpr ⟨hv, dt', hdt'', hname, hmatch⟩)
    · rw [aliasDisplayLoop, if_neg c]
      rw [ih pr]
      constructor
      · rintro ⟨hv, dt', hdt', hrest⟩
        exact ⟨hv, dt', List.mem_cons_of_mem _ hdt', hrest⟩
      · rintro ⟨hv, dt', hdt', hname, hmatch⟩
        rcases List.mem_cons.mp hdt' with rfl | hdt''
        · exact absurd hmatch c
        · exact ⟨hv, dt', hdt'', hname, hmatch⟩

/-- Membership characterization of the alias variant loop over a list of
build variants. -/
theorem aliasVariantLoop_mem (p : Project) (al : ProjectAlias) (rv rt : Regex) :
    ∀ (bvl : List BuildVariant) (l1 l2 : List TVPair),
      aliasVariantLoop p al rv rt bvl = Except.ok (l1, l2) →
      (∀ pr, pr ∈ l1 ↔ ∃ bv, bv ∈ bvl ∧ bv.Name = pr.Variant ∧ rv.MatchString bv.Name = true ∧
          ∃ t, t ∈ p.Tasks ∧ t.Name = pr.TaskName ∧ ¬ t.Patchable = some false ∧
            ((al.Task ≠ "" ∧ rt.MatchString t.Name = true) ∨
             (al.Tags ≠ [] ∧ stringSliceIntersection t.Tags al.Tags ≠ [])) ∧
            ∃ u, p.FindTaskForVariant t.Name bv.Name = Except.ok (some u)) ∧
      (∀ pr, pr ∈ l2 ↔ ∃ bv, bv ∈ bvl ∧ bv.Name = pr.Variant ∧ rv.MatchString bv.Name = true ∧
          al.Task ≠ "" ∧ ∃ dt, dt ∈ bv.DisplayTasks ∧ dt.Name = pr.TaskName ∧
            rt.MatchString dt.Name = true) := by
  intro bvl
  induction bvl with
  | nil =>
    intro l1 l2 h
    rw [aliasVariantLoop] at h
    simp only [Except.ok.injEq, Prod.mk.injEq] at h
    rw [← h.1, ← h.2]
    constructor <;> intro pr <;> simp
  | cons bv rest ih =>
    intro l1 l2 h
    by_cases c : rv.MatchString bv.Name = true
    · rw [aliasVariantLoop, if_pos c] at h
      rcases htl : aliasTaskLoop p al rt bv.Name p.Tasks with e | prs <;> rw [htl] at h
      · simp at h
      · rcases hrec : aliasVariantLoop p al rv rt rest with e2 | st <;> rw [hrec] at h
        · simp at h
        · simp only [Except.ok.injEq, Prod.mk.injEq] at h
          obtain ⟨h1, h2⟩ := h
          subst h1
          subst h2
          obtain ⟨ihe, ihd⟩ := ih st.1 st.2 (by rw [hrec])
          constructor
          · intro pr
            rw [List.mem_append]
            constructor
            · intro hmem
              rcases hmem with hmem | hmem
              · rcases (aliasTaskLoop_mem p al rt bv.Name p.Tasks prs htl pr).mp hmem with
                  ⟨hv, t, ht, hrest⟩
                exact ⟨bv, List.mem_cons_self bv rest, hv.symm, c, t, ht, hrest⟩
              · rcases (ihe pr).mp hmem with ⟨bv', hbv', hrest⟩
                exact ⟨bv', List.mem_cons_of_mem _ hbv', hrest⟩
            · rintro ⟨bv', hbv', hname, hmatch, t, ht, htn, hpatch, hcond, hu⟩
              rcases List.mem_cons.mp hbv' with rfl | hbv''
              · refine Or.inl ((aliasTaskLoop_mem p al rt bv'.Name p.Tasks prs htl pr).mpr ?_)
                exact ⟨hname.symm, t, ht, htn, hpatch, hcond, hu⟩
              · exact Or.inr ((ihe pr).mpr ⟨bv', hbv'', hname, hmatch, t, ht, htn, hpatch, hcond, hu⟩)
          · intro pr
            rw [List.mem_append]
            by_cases ht0 : al.Task = ""
            · rw [if_pos ht0]
              constructor
              · intro hmem
                rcases hmem with hmem | hmem
                · simp at hmem
                · rcases (ihd pr).mp hmem with ⟨bv', hbv', hrest⟩
                  exact ⟨bv', List.mem_cons_of_mem _ hbv', hrest⟩
              · rintro ⟨bv', hbv', hname, hmatch, htne, hrest⟩
                rcases List.mem_cons.mp hbv' with rfl | hbv''
                · exact absurd ht0 htne
                · exact Or.inr ((ihd pr).mpr ⟨bv', hbv'', hname, hmatch, htne, hrest⟩)
            · rw [if_neg ht0]
              constructor
              · intro hmem
                rcases hmem with hmem | hmem
                · rcases (aliasDisplayLoop_mem rt bv.Name bv.DisplayTasks pr).mp hmem with
                    ⟨hv, dt, hdt, hrest⟩
                  exact ⟨bv, List.mem_cons_self bv rest, hv.symm, c, ht0, dt, hdt, hrest⟩
                · rcases (ihd pr).mp hmem with ⟨bv', hbv', hrest⟩
                  exact ⟨bv', List.mem_cons_of_mem _ hbv', hrest⟩
              · rintro ⟨bv', hbv', hname, hmatch, htne, dt, hdt, hrest⟩
                rcases List.mem_cons.mp hbv' with rfl | hbv''
                · exact Or.inl ((aliasDisplayLoop_mem rt bv'.Name bv'.DisplayTasks pr).mpr
                    ⟨hname.symm, dt, hdt, hrest⟩)
                · exact Or.inr ((ihd pr).mpr ⟨bv', hbv'', hname, hmatch, htne, dt, hdt, hrest⟩)
    · rw [aliasVariantLoop, if_neg c] at h
      obtain ⟨ihe, ihd⟩ := ih l1 l2 h
      constructor
      · intro pr
        rw [ihe pr]
        constructor
        · rintro ⟨bv', hbv', hrest⟩
          exact ⟨bv', List.mem_cons_of_mem _ hbv', hrest⟩
        · rintro ⟨bv', hbv', hname, hmatch, hrest⟩
          rcases List.mem_cons.mp hbv' with rfl | hbv''
          · exact absurd hmatch c
          · exact ⟨bv', hbv'', hname, hmatch, hrest⟩
      · intro pr
        rw [ihd pr]
        constructor
        · rintro ⟨bv', hbv', hrest⟩
          exact ⟨bv', List.mem_cons_of_mem _ hbv', hrest⟩
        · rintro ⟨bv', hbv', hname, hmatch, hrest⟩
          rcases List.mem_cons.mp hbv' with rfl | hbv''
          · exact absurd hmatch c
          · exact ⟨bv', hbv'', hname, hmatch, hrest⟩

/-- Membership characterization of BuildProjectTVPairsWithAlias: on a
successful resolution the execution pairs are exactly the aliasSelectsExec
pairs and the display pairs are exactly the aliasSelectsDisplay pairs. -/
theorem aliasPairs_mem (p : Project) :
    ∀ (rules : List ProjectAlias) (l1 l2 : List TVPair),
      BuildProjectTVPairsWithAlias p rules = Except.ok (l1, l2) →
      (∀ pr, pr ∈ l1 ↔ aliasSelectsExec p rules pr) ∧
      (∀ pr, pr ∈ l2 ↔ aliasSelectsDisplay p rules pr) := by
  intro rules
  induction rules with
  | nil =>
    intro l1 l2 h
    rw [BuildProjectTVPairsWithAlias] at h
    simp only [Except.ok.injEq, Prod.mk.injEq] at h
    rw [← h.1, ← h.2]
    constructor <;> intro pr <;> simp [aliasSelectsExec, aliasSelectsDisplay]
  | cons al rest ih =>
    intro l1 l2 h
    rcases hcv : compileRegex al.Variant with _ | rv <;>
      rw [BuildProjectTVPairsWithAlias, hcv] at h <;> dsimp only at h
    · simp at h
    · rcases hct : compileRegex al.Task with _ | rt <;> rw [hct] at h <;> dsimp only at h
      · simp at h
      · rcases hvl : aliasVariantLoop p al rv rt p.BuildVariants with e | here <;> rw [hvl] at h
        · simp at h
        · rcases hrec : BuildProjectTVPairsWithAlias p rest with e2 | st <;> rw [hrec] at h
          · simp at h
          · simp only [Except.ok.injEq, Prod.mk.injEq] at h
            obtain ⟨h1, h2⟩ := h
            subst h1
            subst h2
            obtain ⟨hve, hvd⟩ := aliasVariantLoop_mem p al rv rt p.BuildVariants here.1 here.2
              (by rw [hvl])
            obtain ⟨ihe, ihd⟩ := ih st.1 st.2 (by rw [hrec])
            constructor
            · intro pr
              rw [List.mem_append, hve pr, ihe pr]
              constructor
              · rintro (⟨bv, hbv, hname, hmatch, t, ht, hrest⟩ | hsel)
                · exact ⟨al, List.mem_cons_self al rest, rv, rt, hcv, hct, bv, hbv, hname,
                    hmatch, t, ht, hrest⟩
                · rcases hsel with ⟨al', hal', hrest'⟩
                  exact ⟨al', List.mem_cons_of_mem _ hal', hrest'⟩
              · rintro ⟨al', hal', rv', rt', hcv', hct', hrest'⟩
                rcases List.mem_cons.mp hal' with rfl | hal''
                · rw [hcv] at hcv'
                  rw [hct] at hct'
                  simp only [Option.some.injEq] at hcv' hct'
                  subst hcv'
                  subst hct'
                  exact Or.inl hrest'
                · exact Or.inr ⟨al', hal'', rv', rt', hcv', hct', hrest'⟩
            · intro pr
              rw [List.mem_append, hvd pr, ihd pr]
              constructor
              · rintro (⟨bv, hbv, hname, hmatch, hrest⟩ | hsel)
                · exact ⟨al, List.mem_cons_self al rest, rv, rt, hcv, hct, bv, hbv, hname,
                    hmatch, hrest⟩
                · rcases hsel with ⟨al', hal', hrest'⟩
                  exact ⟨al', List.mem_cons_of_mem _ hal', hrest'⟩
              · rintro ⟨al', hal', rv', rt', hcv', hct', hrest'⟩
                rcases List.mem_cons.mp hal' with rfl | hal''
                · rw [hcv] at hcv'
                  rw [hct] at hct'
                  simp only [Option.some.injEq] at hcv' hct'
                  subst hcv'
                  subst hct'
                  exact Or.inl hrest'
                · exact Or.inr ⟨al', hal'', rv', rt', hcv', hct', hrest'⟩

/-- C2 (amended): alias patterns are compiled as UNanchored regular
expressions; on a successful resolution an execution pair is emitted iff
some alias row compiles, its variant pattern matches somewhere inside the
variant name, the task is not patch-disabled, matches the row by non-empty
task pattern or by tags, and additionally resolves on the variant via
FindTaskForVariant (the counterexample shows the anchored "full name" claim
is false). -/
theorem C2_alias_selection_amended (p : Project) (rules : List ProjectAlias)
    (l1 l2 : List TVPair) (h : BuildProjectTVPairsWithAlias p rules = Except.ok (l1, l2))
    (pr : TVPair) : pr ∈ l1 ↔ aliasSelectsExec p rules pr :=
  (aliasPairs_mem p rules l1 l2 h).1 pr

/-- C2 witness: the characterization instantiated on the concrete project
and alias row of the counterexample. -/
theorem C2_alias_selection_amended_witness :
    (TVPair.mk "ubuntu1604" "t1" ∈ [TVPair.mk "ubuntu1604" "t1"]) ↔
      aliasSelectsExec exC2proj [exC2alias] (TVPair.mk "ubuntu1604" "t1") :=
  C2_alias_selection_amended exC2proj [exC2alias] [TVPair.mk "ubuntu1604" "t1"] [] (by rfl) _

/-- C10: every execution pair emitted by the alias resolver resolves through
FindTaskForVariant on its variant (tasks matching the row but absent from
the variant contribute no pair), while display pairs are emitted without any
reachability filter. -/
theorem C10_alias_reachability_filter (p : Project) (rules : List ProjectAlias)
    (l1 l2 : List TVPair) (h : BuildProjectTVPairsWithAlias p rules = Except.ok (l1, l2)) :
    (∀ pr ∈ l1, ∃ u, p.FindTaskForVariant pr.TaskName pr.Variant = Except.ok (some u)) ∧
    (∀ pr, aliasSelectsDisplay p rules pr → pr ∈ l2) := by
  obtain ⟨he, hd⟩ := aliasPairs_mem p rules l1 l2 h
  constructor
  · intro pr hpr
    rcases (he pr).mp hpr with ⟨al, _, rv, rt, _, _, bv, _, hname, _, t, _, htn, _, _, u, hu⟩
    exact ⟨u, by rw [← htn, ← hname]; exact hu⟩
  · intro pr hsel
    exact (hd pr).mpr hsel

/-- C10 witness: the filter statement instantiated on the concrete project
where tag-matched task t2 is not on the variant and contributes no pair. -/
theorem C10_alias_reachability_filter_witness :
    (∀ pr ∈ ([TVPair.mk "ubuntu1604" "t1"] : List TVPair),
      ∃ u, exC10proj.FindTaskForVariant pr.TaskName pr.Variant = Except.ok (some u)) ∧
    (∀ pr, aliasSelectsDisplay exC10proj [exC10alias] pr → pr ∈ ([] : List TVPair)) :=
  C10_alias_reachability_filter exC10proj [exC10alias] [TVPair.mk "ubuntu1604" "t1"] [] (by rfl)

/-- The first expansion pass only appends to the requested-task list. -/
theorem edtPassOne_tasks_mono (bv : BuildVariant) :
    ∀ (cur : List String) (st : List String × List String) (x : String),
      x ∈ st.1 → x ∈ (edtPassOne bv cur st).1 := by
  intro cur
  induction cur with
  | nil =>
    intro st x hx
    exact hx
  | cons n rest ih =>
    intro st x hx
    rcases st with ⟨t, a⟩
    simp only [edtPassOne]
    by_cases c : bv.GetDisplayTaskNamek n ≠ "" ∧ bv.GetDisplayTaskNamek n ∉ a
    · rw [if_pos c]
      exact ih _ x (List.mem_append.mpr (Or.inl hx))
    · rw [if_neg c]
      exact ih _ x hx

/-- The first expansion pass preserves the invariant that every already-added
name is in the requested-task list. -/
theorem edtPassOne_inv (bv : BuildVariant) :
    ∀ (cur : List String) (st : List String × List String),
      (∀ x ∈ st.2, x ∈ st.1) →
      ∀ x, x ∈ (edtPassOne bv cur st).2 → x ∈ (edtPassOne bv cur st).1 := by
  intro cur
  induction cur with
  | nil =>
    intro st hinv x hx
    exact hinv x hx
  | cons n rest ih =>
    intro st hinv x hx
    rcases st with ⟨t, a⟩
    simp only [edtPassOne] at hx ⊢
    by_cases c : bv.GetDisplayTaskNamek n ≠ "" ∧ bv.GetDisplayTaskNamek n ∉ a
    · rw [if_pos c] at hx ⊢
      refine ih _ ?_ x hx
      intro y hy
      rcases List.mem_append.mp hy with hy' | hy'
      · exact List.mem_append.mpr (Or.inl (hinv y hy'))
      · exact List.mem_append.mpr (Or.inr hy')
    · rw [if_neg c] at hx ⊢
      exact ih _ hinv x hx

/-- When a requested task is iterated and its first containing display task
has a nonempty name, that name is in the task list after the pass. -/
theorem edtPassOne_adds (bv : BuildVariant) (d : String) (hd : d ≠ "") :
    ∀ (cur : List String) (st : List String × List String) (e1 : String),
      e1 ∈ cur → bv.GetDisplayTaskNamek e1 = d →
      (∀ x ∈ st.2, x ∈ st.1) →
      d ∈ (edtPassOne bv cur st).1 := by
  intro cur
  induction cur with
  | nil =>
    intro st e1 he1 _ _
    exact absurd he1 (List.not_mem_nil e1)
  | cons n rest ih =>
    intro st e1 he1 hget hinv
    rcases st with ⟨t, a⟩
    simp only [edtPassOne]
    rcases List.mem_cons.mp he1 with rfl | he1'
    · by_cases c : bv.GetDisplayTaskNamek e1 ≠ "" ∧ bv.GetDisplayTaskNamek e1 ∉ a
      · rw [if_pos c]
        refine edtPassOne_tasks_mono bv rest _ d ?_
        rw [hget]
        exact List.mem_append.mpr (Or.inr (List.mem_singleton.mpr rfl))
      · rw [if_neg c]
        push_neg at c
        have hda : d ∈ a := by
          rw [hget] at c
          exact c hd
        exact edtPassOne_tasks_mono bv rest _ d (hinv d hda)
    · by_cases c : bv.GetDisplayTaskNamek n ≠ "" ∧ bv.GetDisplayTaskNamek n ∉ a
      · rw [if_pos c]
        refine ih _ e1 he1' hget ?_
        intro y hy
        rcases List.mem_append.mp hy with hy' | hy'
        · exact List.mem_append.mpr (Or.inl (hinv y hy'))
        · exact List.mem_append.mpr (Or.inr hy')
      · rw [if_neg c]
        exact ih _ e1 he1' hget hinv

/-- The second expansion pass only appends to its two accumulators. -/
theorem edtPassTwo_mono (n : String) (ts : List String) :
    ∀ (dtl : List DisplayTask) (st : List TVPair × List TVPair) (x : TVPair),
      (x ∈ st.1 → x ∈ (edtPassTwo n ts dtl st).1) ∧
      (x ∈ st.2 → x ∈ (edtPassTwo n ts dtl st).2) := by
  intro dtl
  induction dtl with
  | nil =>
    intro st x
    exact ⟨id, id⟩
  | cons dt rest ih =>
    intro st x
    rcases st with ⟨ds, ps⟩
    simp only [edtPassTwo]
    by_cases c : dt.Name ∈ ts
    · rw [if_pos c]
      constructor
      · intro hx
        exact (ih _ x).1 (List.mem_append.mpr (Or.inl hx))
      · intro hx
        exact (ih _ x).2 (List.mem_append.mpr (Or.inl hx))
    · rw [if_neg c]
      exact ih (ds, ps) x

/-- The second expansion pass emits the display pair and all member pairs of
every display task whose name is requested. -/
theorem edtPassTwo_emits (n : String) (ts : List String) :
    ∀ (dtl : List DisplayTask) (st : List TVPair × List TVPair) (dt : DisplayTask),
      dt ∈ dtl → dt.Name ∈ ts →
      TVPair.mk n dt.Name ∈ (edtPassTwo n ts dtl st).1 ∧
      ∀ et ∈ dt.ExecutionTasks, TVPair.mk n et ∈ (edtPassTwo n ts dtl st).2 := by
  intro dtl
  induction dtl with
  | nil =>
    intro st dt hdt _
    exact absurd hdt (List.not_mem_nil dt)
  | cons d0 rest ih =>
    intro st dt hdt hname
    rcases st with ⟨ds, ps⟩
    simp only [edtPassTwo]
    rcases List.mem_cons.mp hdt with rfl | hdt'
    · rw [if_pos hname]
      constructor
      · refine (edtPassTwo_mono n ts rest _ _).1 ?_
        exact List.mem_append.mpr (Or.inr (List.mem_singleton.mpr rfl))
      · intro et het
        refine (edtPassTwo_mono n ts rest _ _).2 ?_
        refine List.mem_append.mpr (Or.inr ?_)
        exact List.mem_map.mpr ⟨et, het, rfl⟩
    · by_cases c : d0.Name ∈ ts
      · rw [if_pos c]
        exact ih _ dt hdt' hname
      · rw [if_neg c]
        exact ih _ dt hdt' hname

/-- The variant loop only appends display pairs. -/
theorem edtLoop_dts_mono (variants : List String) :
    ∀ (bvl : List BuildVariant) (st : EDTState) (x : TVPair),
      x ∈ st.dts → x ∈ (edtLoop variants bvl st).dts := by
  intro bvl
  induction bvl with
  | nil =>
    intro st x hx
    exact hx
  | cons b rest ih =>
    intro st x hx
    simp only [edtLoop]
    by_cases c : b.Name ∈ variants
    · rw [if_pos c]
      exact ih _ x ((edtPassTwo_mono b.Name _ b.DisplayTasks (st.dts, st.prs) x).1 hx)
    · rw [if_neg c]
      exact ih _ x hx

/-- The variant loop only appends execution pairs. -/
theorem edtLoop_prs_mono (variants : List String) :
    ∀ (bvl : List BuildVariant) (st : EDTState) (x : TVPair),
      x ∈ st.prs → x ∈ (edtLoop variants bvl st).prs := by
  intro bvl
  induction bvl with
  | nil =>
    intro st x hx
    exact hx
  | cons b rest ih =>
    intro st x hx
    simp only [edtLoop]
    by_cases c : b.Name ∈ variants
    · rw [if_pos c]
      exact ih _ x ((edtPassTwo_mono b.Name _ b.DisplayTasks (st.dts, st.prs) x).2 hx)
    · rw [if_neg c]
      exact ih _ x hx

/-- Core selection property of the variant loop: for a selected variant, a
display task whose name is requested (or pulled in as the first display task
of a requested member) yields its display pair and all member pairs. -/
theorem edtLoop_selects (variants : List String) :
    ∀ (bvl : List BuildVariant) (st : EDTState) (bv : BuildVariant) (dt : DisplayTask),
      bv ∈ bvl → bv.Name ∈ variants → dt ∈ bv.DisplayTasks →
      (∀ x ∈ st.added, x ∈ st.tasks) →
      (dt.Name ∈ st.tasks ∨
        (∃ e1, e1 ∈ st.tasks ∧ bv.GetDisplayTaskNamek e1 = dt.Name ∧ dt.Name ≠ "")) →
      TVPair.mk bv.Name dt.Name ∈ (edtLoop variants bvl st).dts ∧
      ∀ et ∈ dt.ExecutionTasks, TVPair.mk bv.Name et ∈ (edtLoop variants bvl st).prs := by
  intro bvl
  induction bvl with
  | nil =>
    intro st bv dt hbv _ _ _ _
    exact absurd hbv (List.not_mem_nil bv)
  | cons b rest ih =>
    intro st bv dt hbv hvar hdt hinv hsel
    rcases List.mem_cons.mp hbv with rfl | hbv'
    · simp only [edtLoop]
      rw [if_pos hvar]
      have hp1 : dt.Name ∈ (edtPassOne bv st.tasks (st.tasks, st.added)).1 := by
        rcases hsel with hmem | ⟨e1, he1, hget, hne⟩
        · exact edtPassOne_tasks_mono bv st.tasks (st.tasks, st.added) dt.Name hmem
        · exact edtPassOne_adds bv dt.Name hne st.tasks (st.tasks, st.added) e1 he1 hget hinv
      have hemit := edtPassTwo_emits bv.Name (edtPassOne bv st.tasks (st.tasks, st.added)).1
        bv.DisplayTasks (st.dts, st.prs) dt hdt hp1
      constructor
      · exact edtLoop_dts_mono variants rest _ _ hemit.1
      · intro et het
        exact edtLoop_prs_mono variants rest _ _ (hemit.2 et het)
    · simp only [edtLoop]
      by_cases c : b.Name ∈ variants
      · rw [if_pos c]
        refine ih _ bv dt hbv' hvar hdt ?_ ?_
        · intro x hx
          exact edtPassOne_inv b st.tasks (st.tasks, st.added) hinv x hx
        · rcases hsel with hmem | ⟨e1, he1, hget, hne⟩
          · exact Or.inl (edtPassOne_tasks_mono b st.tasks (st.tasks, st.added) dt.Name hmem)
          · exact Or.inr ⟨e1, edtPassOne_tasks_mono b st.tasks (st.tasks, st.added) e1 he1,
              hget, hne⟩
      · rw [if_neg c]
        exact ih st bv dt hbv' hvar hdt hinv hsel

/-- C5 (amended): for a variant selected in the variants list, display
expansion is bidirectional up to first-match resolution: if a requested task
e1 has D as the FIRST display task containing it (GetDisplayTaskNamek returns
D, nonempty), the pass emits the display pair (V, D) and exec pairs for all
of D's members; and if D itself is requested, the same pairs are emitted
(the counterexample shows the claim fails for a display task that contains
e1 but is not the first one). -/
theorem C5_display_expansion_amended (p : Project) (pairs : List TVPair)
    (tasks variants : List String) (bv : BuildVariant) (dt : DisplayTask)
    (hbv : bv ∈ p.BuildVariants) (hv : bv.Name ∈ variants) (hdt : dt ∈ bv.DisplayTasks) :
    ((∃ e1, e1 ∈ tasks ∧ bv.GetDisplayTaskNamek e1 = dt.Name ∧ dt.Name ≠ "") →
      TVPair.mk bv.Name dt.Name ∈ (extractDisplayTasks pairs tasks variants p).DisplayTasks ∧
      ∀ et ∈ dt.ExecutionTasks,
        TVPair.mk bv.Name et ∈ (extractDisplayTasks pairs tasks variants p).ExecTasks) ∧
    (dt.Name ∈ tasks →
      TVPair.mk bv.Name dt.Name ∈ (extractDisplayTasks pairs tasks variants p).DisplayTasks ∧
      ∀ et ∈ dt.ExecutionTasks,
        TVPair.mk bv.Name et ∈ (extractDisplayTasks pairs tasks variants p).ExecTasks) := by
  constructor
  · rintro ⟨e1, he1, hget, hne⟩
    exact edtLoop_selects variants p.BuildVariants
      { tasks := tasks, added := [], dts := [], prs := pairs } bv dt hbv hv hdt
      (fun x hx => absurd hx (List.not_mem_nil x))
      (Or.inr ⟨e1, he1, hget, hne⟩)
  · intro hmem
    exact edtLoop_selects variants p.BuildVariants
      { tasks := tasks, added := [], dts := [], prs := pairs } bv dt hbv hv hdt
      (fun x hx => absurd hx (List.not_mem_nil x))
      (Or.inl hmem)

/-- C5 witness: requesting the display task d2 itself emits its display pair
and both member pairs on the concrete project. -/
theorem C5_display_expansion_amended_witness :
    TVPair.mk "v" "d2" ∈ (extractDisplayTasks [] ["d2"] ["v"] exC5proj).DisplayTasks ∧
    ∀ et ∈ exC5dt2.ExecutionTasks,
      TVPair.mk "v" et ∈ (extractDisplayTasks [] ["d2"] ["v"] exC5proj).ExecTasks :=
  (C5_display_expansion_amended exC5proj [] ["d2"] ["v"] exC5bv exC5dt2 (by decide)
    (by decide) (by decide)).2 (by decide)
